import Mathlib

/-!
# Adaptive Redis list: list slot / sorted-set slot with threshold migration

A shallow embedding of `adaptivelist/adaptive_list_ext.go` (`AdaptiveRedisListExt`) and
`adaptivelist/adaptive_list.go` (`AdaptiveRedisList`).

The Redis server is the external collaborator.  It is modelled by a `Store` holding the two
keys the Go code touches: the list at `key` and the sorted set at `key:tree`.  As in Redis, a
key whose container is empty does not exist, so "absent" and "empty" coincide.  Every client
call consumes one entry of a fault schedule; a call whose entry is `true` fails with a storage
error and has no effect on the data.

Go values are embedded as follows: `int64` is `Int` (sizes and scores stay far from the
overflow range), a score `float64(n)` of an integer `n` is the integer itself, `error` is
`Option GoErr` (`none` is the `nil` error of Go), and a go-redis `.Result()` is the pair of the
value (the zero value when the call failed) and the error.
-/

namespace AdaptiveList

/-! ## The store -/

/-- Errors returned by the client: `redisNil` is the sentinel `redis.Nil` (no such element),
`storage` is any other failure of a call. -/
inductive GoErr where
  | redisNil
  | storage
  deriving DecidableEq, Repr

/-- A sorted set as the finite map it is: `(member, score)` pairs, one entry per member. -/
abbrev ZSet := List (String × Int)

/-- The two keys one adaptive list uses: `a.key` and `a.key+":tree"`. -/
inductive Key where
  | key
  | keyTree
  deriving DecidableEq, Repr

/-- The two slots of one adaptive list and the schedule of faults of the calls to come. -/
structure Store where
  list : List String
  tree : ZSet
  faults : List Bool
  deriving DecidableEq, Repr

/-- Both slots absent, no fault scheduled. -/
def Store.empty : Store := ⟨[], [], []⟩

/-- Start of a client call: whether this call fails, and the store with the schedule advanced. -/
def Store.tick (st : Store) : Bool × Store :=
  match st.faults with
  | [] => (false, st)
  | f :: fs => (f, { st with faults := fs })

/-- Order of a sorted set: by score, members of equal score in lexicographic order. -/
def zle (x y : String × Int) : Bool :=
  decide (x.2 < y.2) || (decide (x.2 = y.2) && decide (x.1 ≤ y.1))

/-- Members of a sorted set in ascending rank order. -/
def zmembers (t : ZSet) : List String :=
  (t.insertionSort (fun x y => zle x y = true)).map Prod.fst

/-- Sorted-set insertion: a member already present only has its score replaced. -/
def zadd (t : ZSet) (score : Int) (member : String) : ZSet :=
  t.filter (fun e => decide (e.1 ≠ member)) ++ [(member, score)]

/-- Sorted-set removal of a member. -/
def zrem (t : ZSet) (member : String) : ZSet :=
  t.filter (fun e => decide (e.1 ≠ member))

/-- Index range of Redis `LRANGE` / `ZRANGE`: both ends inclusive, a negative index counts
from the end, out-of-range ends are clamped. -/
def slice {α : Type} (xs : List α) (start stop : Int) : List α :=
  let n : Int := xs.length
  let s := if start < 0 then n + start else start
  let e := if stop < 0 then n + stop else stop
  let s := if s < 0 then 0 else s
  if s > e ∨ s ≥ n then []
  else
    let e := if e ≥ n then n - 1 else e
    (xs.drop s.toNat).take (e - s + 1).toNat

namespace Client

/-- Command `LLEN key`. -/
def LLen (st : Store) : (Int × Option GoErr) × Store :=
  let (bad, st) := st.tick
  if bad then ((0, some GoErr.storage), st) else ((st.list.length, none), st)

/-- Command `TYPE k`: the type name of the container at the key, `none` for an absent key. -/
def TypeOf (k : Key) (st : Store) : (String × Option GoErr) × Store :=
  let (bad, st) := st.tick
  if bad then (("", some GoErr.storage), st)
  else
    match k with
    | Key.key => ((if st.list = [] then "none" else "list", none), st)
    | Key.keyTree => ((if st.tree = [] then "none" else "zset", none), st)

/-- Command `LRANGE key start stop`. -/
def LRange (start stop : Int) (st : Store) : (List String × Option GoErr) × Store :=
  let (bad, st) := st.tick
  if bad then (([], some GoErr.storage), st) else ((slice st.list start stop, none), st)

/-- Command `LINDEX key index`: `redis.Nil` when the index is out of range. -/
def LIndex (index : Int) (st : Store) : (String × Option GoErr) × Store :=
  let (bad, st) := st.tick
  if bad then (("", some GoErr.storage), st)
  else
    let n : Int := st.list.length
    let i := if index < 0 then n + index else index
    if i < 0 then (("", some GoErr.redisNil), st)
    else
      match st.list.get? i.toNat with
      | some v => ((v, none), st)
      | none => (("", some GoErr.redisNil), st)

/-- Command `LPUSH key value`. -/
def LPush (value : String) (st : Store) : Option GoErr × Store :=
  let (bad, st) := st.tick
  if bad then (some GoErr.storage, st) else (none, { st with list := value :: st.list })

/-- Command `RPUSH key value`. -/
def RPush (value : String) (st : Store) : Option GoErr × Store :=
  let (bad, st) := st.tick
  if bad then (some GoErr.storage, st) else (none, { st with list := st.list ++ [value] })

/-- Command `LPOP key`: `redis.Nil` when the list is absent. -/
def LPop (st : Store) : (String × Option GoErr) × Store :=
  let (bad, st) := st.tick
  if bad then (("", some GoErr.storage), st)
  else
    match st.list with
    | [] => (("", some GoErr.redisNil), st)
    | v :: rest => ((v, none), { st with list := rest })

/-- Command `RPOP key`: `redis.Nil` when the list is absent. -/
def RPop (st : Store) : (String × Option GoErr) × Store :=
  let (bad, st) := st.tick
  if bad then (("", some GoErr.storage), st)
  else
    match st.list.getLast? with
    | none => (("", some GoErr.redisNil), st)
    | some v => ((v, none), { st with list := st.list.dropLast })

/-- Command `DEL k`. -/
def Del (k : Key) (st : Store) : Option GoErr × Store :=
  let (bad, st) := st.tick
  if bad then (some GoErr.storage, st)
  else
    match k with
    | Key.key => (none, { st with list := [] })
    | Key.keyTree => (none, { st with tree := [] })

/-- Command `ZCARD key:tree`. -/
def ZCard (st : Store) : (Int × Option GoErr) × Store :=
  let (bad, st) := st.tick
  if bad then ((0, some GoErr.storage), st) else ((st.tree.length, none), st)

/-- Command `ZADD key:tree score member`. -/
def ZAdd (score : Int) (member : String) (st : Store) : Option GoErr × Store :=
  let (bad, st) := st.tick
  if bad then (some GoErr.storage, st)
  else (none, { st with tree := zadd st.tree score member })

/-- Command `ZREM key:tree member`. -/
def ZRem (member : String) (st : Store) : Option GoErr × Store :=
  let (bad, st) := st.tick
  if bad then (some GoErr.storage, st) else (none, { st with tree := zrem st.tree member })

/-- Command `ZRANGE key:tree start stop` (by ascending rank). -/
def ZRange (start stop : Int) (st : Store) : (List String × Option GoErr) × Store :=
  let (bad, st) := st.tick
  if bad then (([], some GoErr.storage), st)
  else ((slice (zmembers st.tree) start stop, none), st)

/-- Command `ZREVRANGE key:tree start stop` (by descending rank). -/
def ZRevRange (start stop : Int) (st : Store) : (List String × Option GoErr) × Store :=
  let (bad, st) := st.tick
  if bad then (([], some GoErr.storage), st)
  else ((slice (zmembers st.tree).reverse start stop, none), st)

end Client

/-! ## `adaptive_list_ext.go` -/

/-- The configuration fields of `AdaptiveRedisListExt`. -/
structure Config where
  threshold : Int
  reverseThreshold : Int
  deriving DecidableEq, Repr

namespace AdaptiveRedisListExt

/-- Method `isTreeMode`. -/
def isTreeMode (st : Store) : (Bool × Option GoErr) × Store :=
  let ((typ, err), st) := Client.TypeOf Key.keyTree st
  if err.isSome then ((false, err), st) else ((decide (typ = "zset"), none), st)

/-- Method `Mode`. -/
def Mode (st : Store) : String × Store :=
  let ((treeMode, _), st) := isTreeMode st
  if treeMode then ("tree", st) else ("list", st)

/-- The `for i, v := range values` loop of `migrateToTree`, from index `i` on. -/
def migrateToTreeLoop : Nat → List String → Store → Option GoErr × Store
  | _, [], st => (none, st)
  | i, v :: vs, st =>
    let (err, st) := Client.ZAdd (i : Int) v st
    if err.isSome then (err, st) else migrateToTreeLoop (i + 1) vs st

/-- Method `migrateToTree`. -/
def migrateToTree (st : Store) : Option GoErr × Store :=
  let ((values, err), st) := Client.LRange 0 (-1) st
  if err.isSome then (err, st)
  else
    let (_, st) := Client.Del Key.key st
    migrateToTreeLoop 0 values st

/-- The `for _, v := range values` loop of `migrateToList`. -/
def migrateToListLoop : List String → Store → Option GoErr × Store
  | [], st => (none, st)
  | v :: vs, st =>
    let (err, st) := Client.RPush v st
    if err.isSome then (err, st) else migrateToListLoop vs st

/-- Method `migrateToList`. -/
def migrateToList (st : Store) : Option GoErr × Store :=
  let ((values, err), st) := Client.ZRange 0 (-1) st
  if err.isSome then (err, st)
  else
    let (_, st) := Client.Del Key.keyTree st
    migrateToListLoop values st

/-- The write of `pushInternal` once the mode is settled (the part after the migration check). -/
def pushInternalWrite (value : String) (left : Bool) (treeMode : Bool) (st : Store) :
    Option GoErr × Store :=
  if treeMode then
    let ((score, _), st) := Client.ZCard st
    let score := if left then -score - 1 else score + 1
    Client.ZAdd score value st
  else if left then Client.LPush value st
  else Client.RPush value st

/-- Method `pushInternal`. -/
def pushInternal (a : Config) (value : String) (left : Bool) (st : Store) :
    Option GoErr × Store :=
  let ((size, _), st) := Client.LLen st
  let ((treeMode, _), st) := isTreeMode st
  if decide (size + 1 ≥ a.threshold) && !treeMode then
    let (err, st) := migrateToTree st
    if err.isSome then (err, st) else pushInternalWrite value left true st
  else pushInternalWrite value left treeMode st

/-- Method `Push`. -/
def Push (a : Config) (value : String) (st : Store) : Option GoErr × Store :=
  pushInternal a value false st

/-- Method `LPush`. -/
def LPush (a : Config) (value : String) (st : Store) : Option GoErr × Store :=
  pushInternal a value true st

/-- Method `popInternal`. -/
def popInternal (a : Config) (left : Bool) (st : Store) : (String × Option GoErr) × Store :=
  let ((treeMode, _), st) := isTreeMode st
  if treeMode then
    let ((vals, err), st) := if left then Client.ZRange 0 0 st else Client.ZRevRange 0 0 st
    match vals with
    | [] => (("", err), st)
    | v0 :: _ =>
      if err.isSome then (("", err), st)
      else
        let (rerr, st) := Client.ZRem v0 st
        if rerr.isSome then (("", rerr), st)
        else
          let ((count, _), st) := Client.ZCard st
          let st := if count ≤ a.reverseThreshold then (migrateToList st).2 else st
          ((v0, none), st)
  else
    let ((val, err), st) := if left then Client.LPop st else Client.RPop st
    if err.isSome then (("", err), st) else ((val, none), st)

/-- Method `Pop`. -/
def Pop (a : Config) (st : Store) : (String × Option GoErr) × Store :=
  popInternal a false st

/-- Method `LPop`. -/
def LPop (a : Config) (st : Store) : (String × Option GoErr) × Store :=
  popInternal a true st

/-- Method `PushMany`. -/
def PushMany (a : Config) : List String → Store → Option GoErr × Store
  | [], st => (none, st)
  | v :: vs, st =>
    let (err, st) := Push a v st
    if err.isSome then (err, st) else PushMany a vs st

end AdaptiveRedisListExt

/-! ## `adaptive_list.go` -/

namespace AdaptiveRedisList

/-- Method `isTreeMode`. -/
def isTreeMode (st : Store) : (Bool × Option GoErr) × Store :=
  let ((typ, err), st) := Client.TypeOf Key.keyTree st
  if err.isSome then ((false, err), st) else ((decide (typ = "zset"), none), st)

/-- Method `Range`. -/
def Range (start stop : Int) (st : Store) : (List String × Option GoErr) × Store :=
  let ((treeMode, _), st) := isTreeMode st
  if treeMode then Client.ZRange start stop st else Client.LRange start stop st

/-- The `for i, v := range values` loop of `migrateToTree`, from index `i` on. -/
def migrateToTreeLoop : Nat → List String → Store → Option GoErr × Store
  | _, [], st => (none, st)
  | i, v :: vs, st =>
    let (err, st) := Client.ZAdd (i : Int) v st
    if err.isSome then (err, st) else migrateToTreeLoop (i + 1) vs st

/-- Method `migrateToTree`. -/
def migrateToTree (st : Store) : Option GoErr × Store :=
  let ((values, err), st) := Client.LRange 0 (-1) st
  if err.isSome then (err, st)
  else
    let (derr, st) := Client.Del Key.key st
    if derr.isSome then (derr, st) else migrateToTreeLoop 0 values st

/-- The write of `Push` after the migration check: the mode is probed again. -/
def PushWrite (value : String) (st : Store) : Option GoErr × Store :=
  let ((treeMode, _), st) := isTreeMode st
  if treeMode then
    let ((score, _), st) := Client.ZCard st
    Client.ZAdd (score + 1) value st
  else Client.RPush value st

/-- Method `Push`; `threshold` is the field of that name. -/
def Push (threshold : Int) (value : String) (st : Store) : Option GoErr × Store :=
  let ((size, err), st) := Client.LLen st
  if err.isSome && decide (err ≠ some GoErr.redisNil) then (err, st)
  else
    let ((treeMode, _), st) := isTreeMode st
    if decide (size + 1 ≥ threshold) && !treeMode then
      let (merr, st) := migrateToTree st
      if merr.isSome then (merr, st) else PushWrite value st
    else PushWrite value st

/-- Method `Pop`. -/
def Pop (st : Store) : (String × Option GoErr) × Store :=
  let ((treeMode, _), st) := isTreeMode st
  if treeMode then
    let ((vals, err), st) := Client.ZRevRange 0 0 st
    match vals with
    | [] => (("", err), st)
    | v0 :: _ =>
      if err.isSome then (("", err), st)
      else
        let (rerr, st) := Client.ZRem v0 st
        if rerr.isSome then (("", rerr), st) else ((v0, none), st)
  else Client.RPop st

/-- Method `Get`. -/
def Get (index : Int) (st : Store) : (String × Option GoErr) × Store :=
  let ((treeMode, _), st) := isTreeMode st
  if treeMode then
    let ((vals, err), st) := Client.ZRange index index st
    match vals with
    | [] => (("", err), st)
    | v0 :: _ => if err.isSome then (("", err), st) else ((v0, none), st)
  else Client.LIndex index st

end AdaptiveRedisList

/-! ## Runs of calls on an `AdaptiveRedisListExt` -/

/-- One public call. -/
inductive Op where
  | push (v : String)
  | lpush (v : String)
  | pop
  | lpop
  | pushMany (vs : List String)
  deriving DecidableEq, Repr

/-- The calls `Push` and `LPush`. -/
def Op.isPush : Op → Bool
  | Op.push _ => true
  | Op.lpush _ => true
  | _ => false

/-- The values a run of calls pushes, in call order. -/
def pushedValues : List Op → List String
  | [] => []
  | Op.push v :: ops => v :: pushedValues ops
  | Op.lpush v :: ops => v :: pushedValues ops
  | Op.pushMany vs :: ops => vs ++ pushedValues ops
  | _ :: ops => pushedValues ops

/-- The calls `Push`, `LPush`, `Pop` and `LPop`. -/
def Op.isBasic : Op → Bool
  | Op.pushMany _ => false
  | _ => true

/-- One call: what it hands back (the popped string, empty for the pushes, and the error)
and the store it leaves. -/
def step (a : Config) : Op → Store → (String × Option GoErr) × Store
  | Op.push v, st => (("", (AdaptiveRedisListExt.Push a v st).1), (AdaptiveRedisListExt.Push a v st).2)
  | Op.lpush v, st =>
    (("", (AdaptiveRedisListExt.LPush a v st).1), (AdaptiveRedisListExt.LPush a v st).2)
  | Op.pop, st => AdaptiveRedisListExt.Pop a st
  | Op.lpop, st => AdaptiveRedisListExt.LPop a st
  | Op.pushMany vs, st =>
    (("", (AdaptiveRedisListExt.PushMany a vs st).1), (AdaptiveRedisListExt.PushMany a vs st).2)

/-- The store after a run of calls. -/
def runOps (a : Config) (ops : List Op) (st : Store) : Store :=
  ops.foldl (fun s op => (step a op s).2) st

/-- Result of `Range(0,-1)` as a caller reads it: the slots are shared with
`AdaptiveRedisList`, whose `Range` is the one in the source. -/
def contents (st : Store) : List String :=
  (AdaptiveRedisList.Range 0 (-1) st).1.1

/-- The store after a read of `Range(0,-1)`. -/
def afterRange (st : Store) : Store :=
  (AdaptiveRedisList.Range 0 (-1) st).2

/-- Result of `Mode()` as a caller reads it. -/
def modeOf (st : Store) : String :=
  (AdaptiveRedisListExt.Mode st).1

/-- What each call of a run returned, with `Range(0,-1)` read right after it. -/
def trace (a : Config) : List Op → Store → List ((String × Option GoErr) × List String)
  | [], _ => []
  | op :: ops, st =>
    ((step a op st).1, contents (step a op st).2) :: trace a ops (afterRange (step a op st).2)

/-- Number of places in a sequence of observed modes where the mode differs from the one
before it. -/
def modeChanges : List String → Nat
  | m1 :: m2 :: ms => (if m1 = m2 then 0 else 1) + modeChanges (m2 :: ms)
  | _ => 0

/-- Every `Push`/`LPush` of the run finds `LLen + 1 < threshold`. -/
def pushesBelow (a : Config) : List Op → Store → Bool
  | [], _ => true
  | Op.push v :: ops, st =>
    decide ((Client.LLen st).1.1 + 1 < a.threshold) && pushesBelow a ops (step a (Op.push v) st).2
  | Op.lpush v :: ops, st =>
    decide ((Client.LLen st).1.1 + 1 < a.threshold) && pushesBelow a ops (step a (Op.lpush v) st).2
  | op :: ops, st => pushesBelow a ops (step a op st).2

/-- The sorted set after `ZADD`ing the values in turn with the scores `i`, `i+1`, ... -/
def zaddSeq : Nat → List String → ZSet → ZSet
  | _, [], t => t
  | i, v :: vs, t => zaddSeq (i + 1) vs (zadd t (i : Int) v)

/-! ## Reference deque -/

/-- A double-ended queue on a plain list, leftmost element first; popping the empty deque
gives the not-found sentinel. -/
def dequeStep : Op → List String → (String × Option GoErr) × List String
  | Op.push v, d => (("", none), d ++ [v])
  | Op.lpush v, d => (("", none), v :: d)
  | Op.pop, d =>
    match d.getLast? with
    | none => (("", some GoErr.redisNil), d)
    | some v => ((v, none), d.dropLast)
  | Op.lpop, d =>
    match d with
    | [] => (("", some GoErr.redisNil), d)
    | v :: rest => ((v, none), rest)
  | Op.pushMany vs, d => (("", none), d ++ vs)

/-- What each call returns on the reference deque, with the deque contents right after it. -/
def dequeTrace : List Op → List String → List ((String × Option GoErr) × List String)
  | [], _ => []
  | op :: ops, d => ((dequeStep op d).1, (dequeStep op d).2) :: dequeTrace ops (dequeStep op d).2

/-- The reference deque after a run of calls. -/
def dequeRun (ops : List Op) (d : List String) : List String :=
  ops.foldl (fun d op => (dequeStep op d).2) d

/-- Size and shape of a store in which one slot is empty and no value occurs twice: a list
slot below `threshold`, or a tree slot above `reverseThreshold`. -/
def SizeInv (a : Config) (l : List String) (t : ZSet) : Prop :=
  (l = [] ∨ t = []) ∧ l.Nodup ∧ (t.map Prod.fst).Nodup ∧
    (t = [] → (l.length : Int) < a.threshold) ∧
    (t ≠ [] → a.reverseThreshold < (t.length : Int))

/-! ## The store without faults -/

@[simp] theorem tick_nil (l : List String) (t : ZSet) :
    Store.tick ⟨l, t, []⟩ = (false, ⟨l, t, []⟩) := rfl

@[simp] theorem tick_cons (l : List String) (t : ZSet) (f : Bool) (fs : List Bool) :
    Store.tick ⟨l, t, f :: fs⟩ = (f, ⟨l, t, fs⟩) := rfl

theorem slice_all {α : Type} (xs : List α) : slice xs 0 (-1) = xs := by
  cases xs with
  | nil => simp [slice]
  | cons x xs =>
    have h1 : ¬ ((0:Int) > ((xs.length : Int) + 1) + -1) := by omega
    have h2 : ¬ ((0:Int) ≥ (xs.length : Int) + 1) := by omega
    simp [slice, h1, h2]

theorem slice_first {α : Type} (xs : List α) : slice xs 0 0 = xs.take 1 := by
  cases xs with
  | nil => simp [slice]
  | cons x xs =>
    have h2 : ¬ ((xs.length : Int) + 1 ≤ 0) := by omega
    simp [slice, h2]

open AdaptiveRedisListExt

theorem isTreeMode_ok (l : List String) (t : ZSet) :
    isTreeMode ⟨l, t, []⟩ = ((!t.isEmpty, none), ⟨l, t, []⟩) := by
  cases t <;> simp [isTreeMode, Client.TypeOf]

theorem baseIsTreeMode_ok (l : List String) (t : ZSet) :
    AdaptiveRedisList.isTreeMode ⟨l, t, []⟩ = ((!t.isEmpty, none), ⟨l, t, []⟩) := by
  cases t <;> simp [AdaptiveRedisList.isTreeMode, Client.TypeOf]

theorem modeOf_ok (l : List String) (t : ZSet) :
    modeOf ⟨l, t, []⟩ = if t = [] then "list" else "tree" := by
  cases t <;> simp [modeOf, Mode, isTreeMode_ok]

theorem contents_ok (l : List String) (t : ZSet) :
    contents ⟨l, t, []⟩ = if t = [] then l else zmembers t := by
  cases t <;>
    simp [contents, AdaptiveRedisList.Range, baseIsTreeMode_ok, Client.ZRange, Client.LRange,
      slice_all]

theorem afterRange_ok (l : List String) (t : ZSet) :
    afterRange ⟨l, t, []⟩ = ⟨l, t, []⟩ := by
  cases t <;>
    simp [afterRange, AdaptiveRedisList.Range, baseIsTreeMode_ok, Client.ZRange, Client.LRange]

theorem migrateToTreeLoop_ok (i : Nat) (vs l : List String) (t : ZSet) :
    migrateToTreeLoop i vs ⟨l, t, []⟩ = (none, ⟨l, zaddSeq i vs t, []⟩) := by
  induction vs generalizing i t with
  | nil => rfl
  | cons v vs ih => simp [migrateToTreeLoop, Client.ZAdd, zaddSeq, ih]

theorem migrateToTree_ok (l : List String) (t : ZSet) :
    migrateToTree ⟨l, t, []⟩ = (none, ⟨[], zaddSeq 0 l t, []⟩) := by
  simp [migrateToTree, Client.LRange, Client.Del, slice_all, migrateToTreeLoop_ok]

theorem migrateToListLoop_ok (vs l : List String) (t : ZSet) :
    migrateToListLoop vs ⟨l, t, []⟩ = (none, ⟨l ++ vs, t, []⟩) := by
  induction vs generalizing l with
  | nil => simp [migrateToListLoop]
  | cons v vs ih => simp [migrateToListLoop, Client.RPush, ih]

theorem migrateToList_ok (l : List String) (t : ZSet) :
    migrateToList ⟨l, t, []⟩ = (none, ⟨l ++ zmembers t, [], []⟩) := by
  simp [migrateToList, Client.ZRange, Client.Del, slice_all, migrateToListLoop_ok]

/-- Method `pushInternal` on a store in tree mode. -/
theorem pushInternal_tree (a : Config) (v : String) (left : Bool) (l : List String) (t : ZSet)
    (ht : t ≠ []) :
    pushInternal a v left ⟨l, t, []⟩ =
      (none, ⟨l, zadd t (if left then -(t.length : Int) - 1 else (t.length : Int) + 1) v, []⟩) := by
  cases t with
  | nil => exact absurd rfl ht
  | cons e t => simp [pushInternal, Client.LLen, isTreeMode_ok, pushInternalWrite, Client.ZCard,
      Client.ZAdd]

/-- Method `pushInternal` in list mode below the threshold. -/
theorem pushInternal_list (a : Config) (v : String) (left : Bool) (l : List String)
    (h : (l.length : Int) + 1 < a.threshold) :
    pushInternal a v left ⟨l, [], []⟩ = (none, ⟨if left then v :: l else l ++ [v], [], []⟩) := by
  have h1 : ¬ (a.threshold ≤ (l.length : Int) + 1) := by omega
  cases left <;>
    simp [pushInternal, Client.LLen, isTreeMode_ok, pushInternalWrite, Client.LPush,
      Client.RPush, h1]

/-- Method `pushInternal` in list mode at the threshold: migration, then the write into the
tree. -/
theorem pushInternal_grow (a : Config) (v : String) (left : Bool) (l : List String)
    (h : a.threshold ≤ (l.length : Int) + 1) :
    pushInternal a v left ⟨l, [], []⟩ =
      (none, ⟨[], zadd (zaddSeq 0 l [])
        (if left then -((zaddSeq 0 l []).length : Int) - 1
          else ((zaddSeq 0 l []).length : Int) + 1) v, []⟩) := by
  simp [pushInternal, Client.LLen, isTreeMode_ok, pushInternalWrite, Client.ZCard,
    Client.ZAdd, h, migrateToTree_ok]

/-- Method `popInternal` in list mode is the pop of the reference deque on the list slot. -/
theorem popInternal_list (a : Config) (left : Bool) (l : List String) :
    popInternal a left ⟨l, [], []⟩ =
      ((dequeStep (if left then Op.lpop else Op.pop) l).1,
        ⟨(dequeStep (if left then Op.lpop else Op.pop) l).2, [], []⟩) := by
  cases left with
  | true =>
    cases l <;> simp [popInternal, isTreeMode_ok, Client.LPop, dequeStep]
  | false =>
    cases hl : l.getLast? <;>
      simp [popInternal, isTreeMode_ok, Client.RPop, dequeStep, hl]

/-- Method `popInternal` in tree mode: the member of lowest (highest) rank is removed, and the tree
is rewritten into the list slot when its cardinality is at most `reverseThreshold`. -/
theorem popInternal_tree (a : Config) (left : Bool) (l : List String) (t : ZSet)
    (m : String) (rest : List String)
    (h : (if left then zmembers t else (zmembers t).reverse) = m :: rest) :
    popInternal a left ⟨l, t, []⟩ =
      ((m, none),
        if ((zrem t m).length : Int) ≤ a.reverseThreshold
        then ⟨l ++ zmembers (zrem t m), [], []⟩ else ⟨l, zrem t m, []⟩) := by
  have ht : t ≠ [] := by
    rintro rfl
    cases left <;> simp [zmembers] at h
  have hte : t.isEmpty = false := by cases t <;> simp_all
  cases left with
  | true =>
    simp only [if_true] at h
    simp only [popInternal, isTreeMode_ok, hte, Client.ZRange, tick_nil, slice_first, h]
    by_cases hc : ((zrem t m).length : Int) ≤ a.reverseThreshold <;>
      simp [Client.ZRem, Client.ZCard, hc, migrateToList_ok]
  | false =>
    simp only [Bool.false_eq_true, if_false] at h
    simp only [popInternal, isTreeMode_ok, hte, Client.ZRevRange, tick_nil, slice_first, h]
    by_cases hc : ((zrem t m).length : Int) ≤ a.reverseThreshold <;>
      simp [Client.ZRem, Client.ZCard, hc, migrateToList_ok]

/-! ## Invariant of the reachable stores: no fault pending, one slot empty -/

theorem zmembers_length (t : ZSet) : (zmembers t).length = t.length := by
  simp [zmembers, List.length_insertionSort]

theorem zmembers_nil : zmembers [] = [] := rfl

theorem exists_popTarget (left : Bool) (t : ZSet) (ht : t ≠ []) :
    ∃ m rest, (if left then zmembers t else (zmembers t).reverse) = m :: rest := by
  have hlen : 0 < (zmembers t).length := by
    rw [zmembers_length]; exact List.length_pos.mpr ht
  cases left with
  | true =>
    cases hz : zmembers t with
    | nil => simp [hz] at hlen
    | cons m rest => exact ⟨m, rest, by simp⟩
  | false =>
    cases hz : (zmembers t).reverse with
    | nil => simp at hz; simp [hz] at hlen
    | cons m rest => exact ⟨m, rest, by simp⟩

theorem pushInternal_inv (a : Config) (v : String) (left : Bool) (l : List String) (t : ZSet)
    (h : l = [] ∨ t = []) :
    ∃ l1 t1, pushInternal a v left ⟨l, t, []⟩ = (none, ⟨l1, t1, []⟩) ∧ (l1 = [] ∨ t1 = []) := by
  by_cases ht : t = []
  · subst ht
    by_cases hg : (l.length : Int) + 1 < a.threshold
    · exact ⟨_, _, pushInternal_list a v left l hg, Or.inr rfl⟩
    · exact ⟨_, _, pushInternal_grow a v left l (by omega), Or.inl rfl⟩
  · have hl : l = [] := h.resolve_right ht
    subst hl
    exact ⟨_, _, pushInternal_tree a v left [] t ht, Or.inl rfl⟩

theorem popInternal_inv (a : Config) (left : Bool) (l : List String) (t : ZSet)
    (h : l = [] ∨ t = []) :
    ∃ r l1 t1, popInternal a left ⟨l, t, []⟩ = (r, ⟨l1, t1, []⟩) ∧ (l1 = [] ∨ t1 = []) := by
  by_cases ht : t = []
  · subst ht
    exact ⟨_, _, _, popInternal_list a left l, Or.inr rfl⟩
  · have hl : l = [] := h.resolve_right ht
    subst hl
    obtain ⟨m, rest, hm⟩ := exists_popTarget left t ht
    rw [popInternal_tree a left [] t m rest hm]
    by_cases hc : ((zrem t m).length : Int) ≤ a.reverseThreshold
    · exact ⟨_, _, _, by rw [if_pos hc], Or.inr rfl⟩
    · exact ⟨_, _, _, by rw [if_neg hc], Or.inl rfl⟩

theorem pushMany_inv (a : Config) (vs : List String) (l : List String) (t : ZSet)
    (h : l = [] ∨ t = []) :
    ∃ l1 t1, PushMany a vs ⟨l, t, []⟩ = (none, ⟨l1, t1, []⟩) ∧ (l1 = [] ∨ t1 = []) := by
  induction vs generalizing l t with
  | nil => exact ⟨l, t, rfl, h⟩
  | cons v vs ih =>
    obtain ⟨l1, t1, hp, h1⟩ := pushInternal_inv a v false l t h
    obtain ⟨l2, t2, hq, h2⟩ := ih l1 t1 h1
    exact ⟨l2, t2, by simp [PushMany, Push, hp, hq], h2⟩

theorem step_inv (a : Config) (op : Op) (l : List String) (t : ZSet) (h : l = [] ∨ t = []) :
    ∃ r l1 t1, step a op ⟨l, t, []⟩ = (r, ⟨l1, t1, []⟩) ∧ (l1 = [] ∨ t1 = []) := by
  cases op with
  | push v =>
    obtain ⟨l1, t1, hp, h1⟩ := pushInternal_inv a v false l t h
    exact ⟨("", none), l1, t1, by simp [step, Push, hp], h1⟩
  | lpush v =>
    obtain ⟨l1, t1, hp, h1⟩ := pushInternal_inv a v true l t h
    exact ⟨("", none), l1, t1, by simp [step, LPush, hp], h1⟩
  | pop => exact popInternal_inv a false l t h
  | lpop => exact popInternal_inv a true l t h
  | pushMany vs =>
    obtain ⟨l1, t1, hp, h1⟩ := pushMany_inv a vs l t h
    exact ⟨("", none), l1, t1, by simp [step, hp], h1⟩

theorem runOps_inv (a : Config) (ops : List Op) (l : List String) (t : ZSet)
    (h : l = [] ∨ t = []) :
    ∃ l1 t1, runOps a ops ⟨l, t, []⟩ = ⟨l1, t1, []⟩ ∧ (l1 = [] ∨ t1 = []) := by
  induction ops generalizing l t with
  | nil => exact ⟨l, t, rfl, h⟩
  | cons op ops ih =>
    obtain ⟨r, l1, t1, hs, h1⟩ := step_inv a op l t h
    obtain ⟨l2, t2, hr, h2⟩ := ih l1 t1 h1
    exact ⟨l2, t2, by simpa [runOps, List.foldl, hs] using hr, h2⟩

theorem runOps_append (a : Config) (xs ys : List Op) (st : Store) :
    runOps a (xs ++ ys) st = runOps a ys (runOps a xs st) := by
  simp [runOps, List.foldl_append]

theorem zadd_ne_nil (t : ZSet) (sc : Int) (v : String) : zadd t sc v ≠ [] := by
  simp [zadd]

/-! ## Growth by right pushes -/

theorem runOps_pushes (a : Config) (hg : 1 ≤ a.threshold) (vs : List String) :
    ∃ l t, runOps a (vs.map Op.push) Store.empty = ⟨l, t, []⟩ ∧
      (if (vs.length : Int) < a.threshold then l = vs ∧ t = [] else t ≠ []) := by
  induction vs using List.reverseRecOn with
  | nil =>
    refine ⟨[], [], rfl, ?_⟩
    have h0 : ((([] : List String).length : Nat) : Int) < a.threshold := by simp; omega
    rw [if_pos h0]
    exact ⟨rfl, rfl⟩
  | append_singleton vs v ih =>
    obtain ⟨l, t, hr, hi⟩ := ih
    rw [List.map_append, runOps_append, hr]
    simp only [List.map_cons, List.map_nil, runOps, List.foldl_cons, List.foldl_nil, step, Push,
      List.length_append, List.length_singleton, Nat.cast_add, Nat.cast_one]
    by_cases hlt : (vs.length : Int) < a.threshold
    · rw [if_pos hlt] at hi
      obtain ⟨rfl, rfl⟩ := hi
      by_cases hlt2 : (l.length : Int) + 1 < a.threshold
      · rw [pushInternal_list a v false l hlt2]
        exact ⟨_, _, rfl, by simp [hlt2]⟩
      · rw [pushInternal_grow a v false l (by omega)]
        exact ⟨_, _, rfl, by rw [if_neg hlt2]; exact zadd_ne_nil _ _ _⟩
    · rw [if_neg hlt] at hi
      rw [pushInternal_tree a v false l t hi]
      have hlt2 : ¬ ((vs.length : Int) + 1 < a.threshold) := by omega
      exact ⟨_, _, rfl, by rw [if_neg hlt2]; exact zadd_ne_nil _ _ _⟩

/-- C2: for `growThreshold >= 1`, after `n` right pushes onto the empty collection `Mode()` is
"list" when `n < growThreshold` and "tree" when `n >= growThreshold`. -/
theorem mode_after_pushes (a : Config) (hg : 1 ≤ a.threshold) (vs : List String) :
    modeOf (runOps a (vs.map Op.push) Store.empty) =
      if (vs.length : Int) < a.threshold then "list" else "tree" := by
  obtain ⟨l, t, hr, hi⟩ := runOps_pushes a hg vs
  rw [hr, modeOf_ok]
  by_cases hlt : (vs.length : Int) < a.threshold
  · rw [if_pos hlt] at hi
    rw [if_pos hlt, if_pos hi.2]
  · rw [if_neg hlt] at hi
    rw [if_neg hlt, if_neg hi]

/-- C2 at the thresholds of the test: with `growThreshold = 8` the mode is "list" after 7 right
pushes and "tree" after the 8th. -/
theorem mode_after_pushes_witness :
    (1 : Int) ≤ 8 ∧
    modeOf (runOps ⟨8, 4⟩
      (["val0", "val1", "val2", "val3", "val4", "val5", "val6"].map Op.push) Store.empty)
        = "list" ∧
    modeOf (runOps ⟨8, 4⟩
      (["val0", "val1", "val2", "val3", "val4", "val5", "val6", "val7"].map Op.push)
        Store.empty) = "tree" :=
  ⟨by decide,
   mode_after_pushes ⟨8, 4⟩ (by decide) ["val0", "val1", "val2", "val3", "val4", "val5", "val6"],
   mode_after_pushes ⟨8, 4⟩ (by decide)
     ["val0", "val1", "val2", "val3", "val4", "val5", "val6", "val7"]⟩

/-! ## Mutual exclusivity of the slots -/

/-- C7: in every state reached from the empty store by `Push`, `LPush`, `Pop`, `LPop` and
`PushMany` calls (no storage errors), the list slot or the tree slot is empty. -/
theorem slots_mutually_exclusive (a : Config) (ops : List Op) :
    (runOps a ops Store.empty).list = [] ∨ (runOps a ops Store.empty).tree = [] := by
  obtain ⟨l, t, hr, h⟩ := runOps_inv a ops [] [] (Or.inl rfl)
  rw [show Store.empty = ⟨[], [], []⟩ from rfl, hr]
  exact h

/-! ## Popping the empty collection -/

/-- C10: `Pop()` and `LPop()` on the empty collection return the empty string with the
not-found sentinel `redis.Nil` (not a storage failure), and leave both slots absent and the
mode "list". -/
theorem pop_empty_redisNil (a : Config) :
    Pop a Store.empty = (("", some GoErr.redisNil), Store.empty) ∧
    LPop a Store.empty = (("", some GoErr.redisNil), Store.empty) ∧
    GoErr.redisNil ≠ GoErr.storage ∧
    modeOf Store.empty = "list" ∧
    modeOf (Pop a Store.empty).2 = "list" ∧ modeOf (LPop a Store.empty).2 = "list" := by
  have h1 : Pop a Store.empty = (("", some GoErr.redisNil), Store.empty) := by
    simp [Pop, Store.empty, popInternal_list, dequeStep]
  have h2 : LPop a Store.empty = (("", some GoErr.redisNil), Store.empty) := by
    simp [LPop, Store.empty, popInternal_list, dequeStep]
  refine ⟨h1, h2, by decide, ?_, ?_, ?_⟩
  · simp [Store.empty, modeOf_ok]
  · rw [h1]; simp [Store.empty, modeOf_ok]
  · rw [h2]; simp [Store.empty, modeOf_ok]

/-! ## List mode is the reference deque -/

theorem pushesBelow_take (a : Config) (ops : List Op) (k : Nat) (st : Store)
    (hp : pushesBelow a ops st = true) : pushesBelow a (ops.take k) st = true := by
  induction ops generalizing k st with
  | nil => simpa using hp
  | cons op ops ih =>
    cases k with
    | zero => simp [pushesBelow]
    | succ k =>
      cases op <;>
        simp only [List.take_succ_cons, pushesBelow, Bool.and_eq_true, decide_eq_true_eq] at hp ⊢
      · exact ⟨hp.1, ih k _ hp.2⟩
      · exact ⟨hp.1, ih k _ hp.2⟩
      · exact ih k _ hp
      · exact ih k _ hp
      · exact ih k _ hp

theorem deque_refines (a : Config) (ops : List Op) (l : List String)
    (hb : ∀ op ∈ ops, op.isBasic = true) (hp : pushesBelow a ops ⟨l, [], []⟩ = true) :
    trace a ops ⟨l, [], []⟩ = dequeTrace ops l ∧
      runOps a ops ⟨l, [], []⟩ = ⟨dequeRun ops l, [], []⟩ := by
  induction ops generalizing l with
  | nil => exact ⟨rfl, rfl⟩
  | cons op ops ih =>
    have hb2 : ∀ o ∈ ops, o.isBasic = true := fun o ho => hb o (List.mem_cons_of_mem _ ho)
    have hstep : ∀ r l1, step a op ⟨l, [], []⟩ = (r, ⟨l1, [], []⟩) → dequeStep op l = (r, l1) →
        pushesBelow a ops ⟨l1, [], []⟩ = true →
        trace a (op :: ops) ⟨l, [], []⟩ = dequeTrace (op :: ops) l ∧
          runOps a (op :: ops) ⟨l, [], []⟩ = ⟨dequeRun (op :: ops) l, [], []⟩ := by
      intro r l1 hs hd hp1
      obtain ⟨h1, h2⟩ := ih l1 hb2 hp1
      constructor
      · simp only [trace, dequeTrace, hs, hd, contents_ok, afterRange_ok, if_true, h1]
      · simpa only [runOps, dequeRun, List.foldl_cons, hs, hd] using h2
    cases op with
    | push v =>
      simp only [pushesBelow, Client.LLen, tick_nil, Bool.and_eq_true, decide_eq_true_eq] at hp
      have hs : step a (Op.push v) ⟨l, [], []⟩ = (("", none), ⟨l ++ [v], [], []⟩) := by
        simp [step, Push, pushInternal_list a v false l hp.1]
      exact hstep _ _ hs rfl (by simpa only [hs] using hp.2)
    | lpush v =>
      simp only [pushesBelow, Client.LLen, tick_nil, Bool.and_eq_true, decide_eq_true_eq] at hp
      have hs : step a (Op.lpush v) ⟨l, [], []⟩ = (("", none), ⟨v :: l, [], []⟩) := by
        simp [step, LPush, pushInternal_list a v true l hp.1]
      exact hstep _ _ hs rfl (by simpa only [hs] using hp.2)
    | pop =>
      have hs : step a Op.pop ⟨l, [], []⟩ =
          ((dequeStep Op.pop l).1, ⟨(dequeStep Op.pop l).2, [], []⟩) := by
        simpa [step, Pop] using popInternal_list a false l
      simp only [pushesBelow] at hp
      exact hstep _ _ hs rfl (by simpa only [hs] using hp)
    | lpop =>
      have hs : step a Op.lpop ⟨l, [], []⟩ =
          ((dequeStep Op.lpop l).1, ⟨(dequeStep Op.lpop l).2, [], []⟩) := by
        simpa [step, LPop] using popInternal_list a true l
      simp only [pushesBelow] at hp
      exact hstep _ _ hs rfl (by simpa only [hs] using hp)
    | pushMany vs =>
      have := hb (Op.pushMany vs) (List.mem_cons_self _ _)
      simp [Op.isBasic] at this

/-- C4: a run of `Push`/`LPush`/`Pop`/`LPop` calls from the empty collection in which every
push finds `LLen + 1 < growThreshold` stays in list mode and is the reference deque: every
call returns what the deque returns and `Range(0,-1)`, like the list slot itself, holds the
deque contents after every call. -/
theorem list_mode_is_deque (a : Config) (ops : List Op)
    (hb : ∀ op ∈ ops, op.isBasic = true) (hp : pushesBelow a ops Store.empty = true) :
    trace a ops Store.empty = dequeTrace ops [] ∧
    ∀ k, runOps a (ops.take k) Store.empty = ⟨dequeRun (ops.take k) [], [], []⟩ ∧
      modeOf (runOps a (ops.take k) Store.empty) = "list" := by
  refine ⟨(deque_refines a ops [] hb hp).1, fun k => ?_⟩
  have hb2 : ∀ op ∈ ops.take k, op.isBasic = true :=
    fun op ho => hb op (List.mem_of_mem_take ho)
  have h := (deque_refines a (ops.take k) [] hb2 (pushesBelow_take a ops k _ hp)).2
  rw [show Store.empty = ⟨[], [], []⟩ from rfl, h]
  exact ⟨rfl, by simp [modeOf_ok]⟩

/-- C4 on the scenario of the test (`growThreshold = 8`): `LPush left1`, `LPush left2`,
`Push right1` give `[left2, left1, right1]`, `LPop` returns `left2`, then `Pop` returns
`right1`. -/
theorem list_mode_is_deque_witness :
    trace ⟨8, 4⟩ [Op.lpush "left1", Op.lpush "left2", Op.push "right1", Op.lpop, Op.pop]
        Store.empty =
      [(("", none), ["left1"]), (("", none), ["left2", "left1"]),
       (("", none), ["left2", "left1", "right1"]), (("left2", none), ["left1", "right1"]),
       (("right1", none), ["left1"])] :=
  (list_mode_is_deque ⟨8, 4⟩
    [Op.lpush "left1", Op.lpush "left2", Op.push "right1", Op.lpop, Op.pop]
    (by decide) (by decide)).1.trans (by decide)

/-! ## The order of the sorted set -/

theorem zle_iff (x y : String × Int) :
    zle x y = true ↔ x.2 < y.2 ∨ (x.2 = y.2 ∧ x.1 ≤ y.1) := by
  simp [zle]

theorem zle_total (x y : String × Int) : zle x y = true ∨ zle y x = true := by
  rw [zle_iff, zle_iff]
  rcases lt_trichotomy x.2 y.2 with h | h | h
  · exact Or.inl (Or.inl h)
  · rcases le_total x.1 y.1 with h1 | h1
    · exact Or.inl (Or.inr ⟨h, h1⟩)
    · exact Or.inr (Or.inr ⟨h.symm, h1⟩)
  · exact Or.inr (Or.inl h)

theorem zle_trans (x y z : String × Int) (h1 : zle x y = true) (h2 : zle y z = true) :
    zle x z = true := by
  rw [zle_iff] at *
  rcases h1 with h1 | ⟨h1, h1s⟩ <;> rcases h2 with h2 | ⟨h2, h2s⟩
  · exact Or.inl (lt_trans h1 h2)
  · exact Or.inl (h2 ▸ h1)
  · exact Or.inl (h1 ▸ h2)
  · exact Or.inr ⟨h1.trans h2, le_trans h1s h2s⟩

theorem zle_antisymm (x y : String × Int) (h1 : zle x y = true) (h2 : zle y x = true) :
    x = y := by
  rw [zle_iff] at *
  rcases h1 with h1 | ⟨h1, h1s⟩ <;> rcases h2 with h2 | ⟨h2, h2s⟩
  · exact absurd h1 (lt_asymm h2)
  · omega
  · omega
  · exact Prod.ext (le_antisymm h1s h2s) h1

/-- Ascending rank order of the entries of a sorted set. -/
theorem zsort_sorted (t : ZSet) :
    (t.insertionSort (fun x y => zle x y = true)).Sorted (fun x y => zle x y = true) := by
  haveI : IsTotal (String × Int) (fun x y => zle x y = true) := ⟨zle_total⟩
  haveI : IsTrans (String × Int) (fun x y => zle x y = true) := ⟨zle_trans⟩
  exact List.sorted_insertionSort _ t

/-- A list of entries in ascending order that holds the entries of the set is its ranking. -/
theorem zsort_eq_of_perm (t z : ZSet) (hp : z.Perm t)
    (hs : z.Sorted (fun x y => zle x y = true)) :
    t.insertionSort (fun x y => zle x y = true) = z := by
  haveI : IsAntisymm (String × Int) (fun x y => zle x y = true) := ⟨zle_antisymm⟩
  exact List.eq_of_perm_of_sorted ((List.perm_insertionSort _ t).trans hp.symm)
    (zsort_sorted t) hs

theorem zmembers_zrem (t : ZSet) (m : String) :
    zmembers (zrem t m) = (zmembers t).filter (fun x => decide (x ≠ m)) := by
  have h : (zrem t m).insertionSort (fun x y => zle x y = true) =
      (t.insertionSort (fun x y => zle x y = true)).filter (fun e => decide (e.1 ≠ m)) := by
    apply zsort_eq_of_perm
    · exact (List.perm_insertionSort _ t).filter _
    · exact (zsort_sorted t).filter _
  simp only [zmembers, h, List.filter_map]
  rfl

theorem zmembers_perm (t : ZSet) : (zmembers t).Perm (t.map Prod.fst) :=
  (List.perm_insertionSort _ t).map _

theorem mem_zmembers (t : ZSet) (m : String) : m ∈ zmembers t ↔ m ∈ t.map Prod.fst :=
  (zmembers_perm t).mem_iff

theorem length_zrem (t : ZSet) (m : String) (hnd : (t.map Prod.fst).Nodup)
    (hm : m ∈ t.map Prod.fst) : (zrem t m).length + 1 = t.length := by
  induction t with
  | nil => simp at hm
  | cons e t ih =>
    simp only [List.map_cons, List.nodup_cons] at hnd
    by_cases he : e.1 = m
    · subst he
      have hall : ∀ x ∈ t, decide (x.1 ≠ e.1) = true := by
        intro x hx
        have : x.1 ∈ t.map Prod.fst := List.mem_map_of_mem _ hx
        simp only [decide_eq_true_eq]
        rintro h
        exact hnd.1 (h ▸ this)
      simp only [zrem, List.filter_cons, ne_eq, not_true_eq_false, decide_False,
        Bool.false_eq_true, if_false]
      rw [List.filter_eq_self.mpr hall, List.length_cons]
    · have hm2 : m ∈ t.map Prod.fst := by
        simp only [List.map_cons, List.mem_cons] at hm
        rcases hm with h | h
        · exact absurd h.symm he
        · exact h
      have := ih hnd.2 hm2
      simp only [zrem] at this ⊢
      have hd : decide (e.1 ≠ m) = true := by simpa using he
      rw [List.filter_cons, if_pos hd, List.length_cons, this, List.length_cons]

theorem popTarget_spec (left : Bool) (t : ZSet) (m : String) (rest : List String)
    (h : (if left then zmembers t else (zmembers t).reverse) = m :: rest) :
    (if left then (zmembers t).head? else (zmembers t).getLast?) = some m ∧
      m ∈ t.map Prod.fst := by
  cases left with
  | true =>
    simp only [if_true] at h
    refine ⟨by simp [h], (mem_zmembers t m).mp (by simp [h])⟩
  | false =>
    simp only [Bool.false_eq_true, if_false] at h
    have h2 : zmembers t = rest.reverse ++ [m] := by
      have := congrArg List.reverse h
      simpa using this
    refine ⟨by simp [h2], (mem_zmembers t m).mp (by simp [h2])⟩

/-! ## Shrinking by a pop in tree mode -/

/-- C3: in tree mode (list slot empty, tree slot a sorted set of `n >= 1` members) with
`reverseThreshold >= 0`, one `Pop()` or `LPop()` returns the member of highest (lowest) rank
and leaves the mode "list" exactly when `n - 1 <= reverseThreshold`; the list slot then holds
the remaining members in their former ascending order and the tree slot is gone; otherwise the
mode is "tree" and the tree slot is the old one without the popped member. -/
theorem pop_tree_mode (a : Config) (hs : 0 ≤ a.reverseThreshold) (t : ZSet) (left : Bool)
    (hne : t ≠ []) (hnd : (t.map Prod.fst).Nodup) :
    ∃ m, (popInternal a left ⟨[], t, []⟩).1 = (m, none) ∧
      (if left then (zmembers t).head? else (zmembers t).getLast?) = some m ∧
      (modeOf (popInternal a left ⟨[], t, []⟩).2 = "list" ↔
        (t.length : Int) - 1 ≤ a.reverseThreshold) ∧
      ((t.length : Int) - 1 ≤ a.reverseThreshold →
        (popInternal a left ⟨[], t, []⟩).2 =
          ⟨(zmembers t).filter (fun x => decide (x ≠ m)), [], []⟩) ∧
      (a.reverseThreshold < (t.length : Int) - 1 →
        modeOf (popInternal a left ⟨[], t, []⟩).2 = "tree" ∧
        (popInternal a left ⟨[], t, []⟩).2 =
          ⟨[], t.filter (fun e => decide (e.1 ≠ m)), []⟩) := by
  obtain ⟨m, rest, hm⟩ := exists_popTarget left t hne
  obtain ⟨hsome, hmem⟩ := popTarget_spec left t m rest hm
  have hlen := length_zrem t m hnd hmem
  have hcount : ((zrem t m).length : Int) = (t.length : Int) - 1 := by omega
  refine ⟨m, ?_, hsome, ?_⟩
  · rw [popInternal_tree a left [] t m rest hm]
  · rw [popInternal_tree a left [] t m rest hm]
    by_cases hc : ((zrem t m).length : Int) ≤ a.reverseThreshold
    · have hc2 : (t.length : Int) - 1 ≤ a.reverseThreshold := by omega
      rw [if_pos hc]
      refine ⟨by simp [modeOf_ok, hc2], fun _ => ?_, fun h => absurd hc2 (by omega)⟩
      rw [List.nil_append, zmembers_zrem]
    · have hc2 : ¬ ((t.length : Int) - 1 ≤ a.reverseThreshold) := by omega
      have hne2 : zrem t m ≠ [] := by
        intro h0
        rw [h0] at hc
        simp at hc
        omega
      rw [if_neg hc]
      refine ⟨by simp [modeOf_ok, hne2, hc2], fun h => absurd h hc2, fun _ => ?_⟩
      exact ⟨by simp [modeOf_ok, hne2], rfl⟩

/-- C3 at the thresholds of the test (`growThreshold = 8`, `reverseThreshold = 4`): popping a
tree of 6 members down to 5 stays in tree mode, popping a tree of 5 members down to 4 returns
to list mode with the four remaining members in order. -/
theorem pop_tree_mode_witness :
    modeOf (popInternal ⟨8, 4⟩ false
      ⟨[], [("val0", 0), ("val1", 1), ("val2", 2), ("val3", 3), ("val4", 4), ("val5", 5)],
        []⟩).2 = "tree" ∧
    (popInternal ⟨8, 4⟩ false
      ⟨[], [("val0", 0), ("val1", 1), ("val2", 2), ("val3", 3), ("val4", 4)], []⟩).2 =
        ⟨["val0", "val1", "val2", "val3"], [], []⟩ := by
  obtain ⟨m, h1, -, -, -, h5⟩ := pop_tree_mode ⟨8, 4⟩ (by decide)
    [("val0", 0), ("val1", 1), ("val2", 2), ("val3", 3), ("val4", 4), ("val5", 5)] false
    (by decide) (by decide)
  obtain ⟨m2, k1, k2, -, k4, -⟩ := pop_tree_mode ⟨8, 4⟩ (by decide)
    [("val0", 0), ("val1", 1), ("val2", 2), ("val3", 3), ("val4", 4)] false
    (by decide) (by decide)
  refine ⟨(h5 (by decide)).1, ?_⟩
  rw [k4 (by decide)]
  have hm2 : m2 = "val4" := by
    have : some m2 = some "val4" := k2.symm.trans (by decide)
    exact Option.some.inj this
  subst hm2
  decide

/-! ## Sorted sets built from pairwise distinct values -/

theorem zadd_fresh (t : ZSet) (sc : Int) (v : String) (hv : v ∉ t.map Prod.fst) :
    zadd t sc v = t ++ [(v, sc)] := by
  have hall : ∀ x ∈ t, decide (x.1 ≠ v) = true := by
    intro x hx
    simp only [decide_eq_true_eq]
    rintro h
    exact hv (h ▸ List.mem_map_of_mem _ hx)
  rw [zadd, List.filter_eq_self.mpr hall]

/-- Entries written by the migration loop for pairwise distinct values that the set does not
hold yet: the value at position `k` gets the score `i + k`. -/
theorem zaddSeq_fresh (i : Nat) (l : List String) (t : ZSet) (hnd : l.Nodup)
    (hd : ∀ x ∈ l, x ∉ t.map Prod.fst) :
    zaddSeq i l t = t ++ (l.enumFrom i).map (fun p => (p.2, (p.1 : Int))) := by
  induction l generalizing i t with
  | nil => simp [zaddSeq]
  | cons v vs ih =>
    rw [List.nodup_cons] at hnd
    have hv : v ∉ t.map Prod.fst := hd v (List.mem_cons_self _ _)
    rw [zaddSeq, zadd_fresh t _ v hv, ih (i + 1) _ hnd.2]
    · simp [List.enumFrom]
    · intro x hx
      simp only [List.map_append, List.map_cons, List.map_nil, List.mem_append,
        List.mem_singleton, not_or]
      exact ⟨hd x (List.mem_cons_of_mem _ hx), fun h => hnd.1 (h ▸ hx)⟩

theorem zaddSeq_keys (i : Nat) (l : List String) (hnd : l.Nodup) :
    (zaddSeq i l []).map Prod.fst = l := by
  rw [zaddSeq_fresh i l [] hnd (by simp)]
  simp only [List.nil_append, List.map_map]
  have : (Prod.fst ∘ fun p : Nat × String => (p.2, (p.1 : Int))) = Prod.snd := rfl
  rw [this, List.enumFrom_map_snd]

/-- Entries whose scores increase along the list are in rank order. -/
theorem enumFrom_entries_sorted (i : Nat) (l : List String) :
    ((l.enumFrom i).map (fun p => (p.2, (p.1 : Int)))).Sorted
      (fun x y => zle x y = true) := by
  induction l generalizing i with
  | nil => simp [List.Sorted]
  | cons v vs ih =>
    simp only [List.enumFrom_cons, List.map_cons, List.Sorted, List.pairwise_cons]
    refine ⟨?_, ih (i + 1)⟩
    intro y hy
    obtain ⟨p, hp, rfl⟩ := List.mem_map.mp hy
    obtain ⟨j, w⟩ := p
    have hj := (List.mem_enumFrom hp).1
    rw [zle_iff]
    left
    show (i : Int) < (j : Int)
    omega

/-- Ranking of the tree that `migrateToTree` writes for pairwise distinct values: the values
in their list order. -/
theorem zmembers_zaddSeq (i : Nat) (l : List String) (hnd : l.Nodup) :
    zmembers (zaddSeq i l []) = l := by
  have hk := zaddSeq_keys i l hnd
  have hf := zaddSeq_fresh i l [] hnd (by simp)
  rw [List.nil_append] at hf
  have hsorted : (zaddSeq i l []).Sorted (fun x y => zle x y = true) := by
    rw [hf]; exact enumFrom_entries_sorted i l
  rw [zmembers, zsort_eq_of_perm _ _ (List.Perm.refl _) hsorted, hk]

/-- Round trip of the two migrations on a list of pairwise distinct elements. -/
theorem migration_round_trip_distinct (l : List String) (hnd : l.Nodup) :
    migrateToList (migrateToTree ⟨l, [], []⟩).2 = (none, ⟨l, [], []⟩) := by
  rw [migrateToTree_ok, migrateToList_ok, zmembers_zaddSeq 0 l hnd, List.nil_append]

/-! ## Right pushes of pairwise distinct values keep the order -/

/-- A set stored with strictly increasing scores is ranked in its stored order. -/
theorem zmembers_of_scores_increasing (t : ZSet) (hs : t.Sorted (fun x y => x.2 < y.2)) :
    zmembers t = t.map Prod.fst := by
  have hz : t.Sorted (fun x y => zle x y = true) :=
    List.Pairwise.imp (fun {x y} h => (zle_iff x y).mpr (Or.inl h)) hs
  rw [zmembers, zsort_eq_of_perm t t (List.Perm.refl _) hz]

/-- The right push into a tree whose scores increase and stay at most the cardinality: the
new member gets a score above all others. -/
theorem zadd_right_fresh (t : ZSet) (v : String) (hs : t.Sorted (fun x y => x.2 < y.2))
    (hb : ∀ e ∈ t, e.2 ≤ (t.length : Int)) (hv : v ∉ t.map Prod.fst) :
    zadd t ((t.length : Int) + 1) v = t ++ [(v, (t.length : Int) + 1)] ∧
    (zadd t ((t.length : Int) + 1) v).Sorted (fun x y => x.2 < y.2) ∧
    (∀ e ∈ zadd t ((t.length : Int) + 1) v,
      e.2 ≤ ((zadd t ((t.length : Int) + 1) v).length : Int)) := by
  have h := zadd_fresh t ((t.length : Int) + 1) v hv
  refine ⟨h, ?_, ?_⟩
  · rw [h]
    refine List.pairwise_append.mpr ⟨hs, List.pairwise_singleton _ _, ?_⟩
    intro x hx y hy
    rw [List.mem_singleton] at hy
    subst hy
    have := hb x hx
    show x.2 < (t.length : Int) + 1
    omega
  · rw [h]
    intro e he
    rw [List.length_append, List.length_singleton]
    rcases List.mem_append.mp he with h1 | h1
    · have := hb e h1
      push_cast
      omega
    · rw [List.mem_singleton] at h1
      subst h1
      push_cast
      exact le_refl _

theorem zaddSeq_scores (l : List String) (hnd : l.Nodup) :
    (zaddSeq 0 l []).Sorted (fun x y => x.2 < y.2) ∧
    (∀ e ∈ zaddSeq 0 l [], e.2 ≤ ((zaddSeq 0 l []).length : Int)) := by
  have hf := zaddSeq_fresh 0 l [] hnd (by simp)
  rw [List.nil_append] at hf
  have hsorted : ∀ (i : Nat) (l : List String),
      ((l.enumFrom i).map (fun p => (p.2, (p.1 : Int)))).Sorted
        (fun x y : String × Int => x.2 < y.2) := by
    intro i l
    induction l generalizing i with
    | nil => simp [List.Sorted]
    | cons v vs ih =>
      simp only [List.enumFrom_cons, List.map_cons, List.Sorted, List.pairwise_cons]
      refine ⟨?_, ih (i + 1)⟩
      intro y hy
      obtain ⟨p, hp, rfl⟩ := List.mem_map.mp hy
      obtain ⟨j, w⟩ := p
      have hj := (List.mem_enumFrom hp).1
      show (i : Int) < (j : Int)
      omega
  refine ⟨by rw [hf]; exact hsorted 0 l, ?_⟩
  rw [hf]
  intro e he
  obtain ⟨p, hp, rfl⟩ := List.mem_map.mp he
  obtain ⟨j, w⟩ := p
  have hj := (List.mem_enumFrom hp).2.1
  simp only [List.length_map, List.enumFrom_length]
  show (j : Int) ≤ (l.length : Int)
  omega

theorem pushMany_tree_distinct (a : Config) (vs : List String) (l : List String) (t : ZSet)
    (ht : t ≠ []) (hs : t.Sorted (fun x y => x.2 < y.2))
    (hb : ∀ e ∈ t, e.2 ≤ (t.length : Int)) (hnd : (t.map Prod.fst ++ vs).Nodup) :
    ∃ t1, PushMany a vs ⟨l, t, []⟩ = (none, ⟨l, t1, []⟩) ∧ t1 ≠ [] ∧
      zmembers t1 = t.map Prod.fst ++ vs := by
  induction vs generalizing t with
  | nil => exact ⟨t, rfl, ht, by simp [zmembers_of_scores_increasing t hs]⟩
  | cons v vs ih =>
    have hv : v ∉ t.map Prod.fst := by
      intro hmem
      exact (List.nodup_append.mp hnd).2.2 hmem (List.mem_cons_self _ _) 
    obtain ⟨h1, h2, h3⟩ := zadd_right_fresh t v hs hb hv
    have hnd2 : ((zadd t ((t.length : Int) + 1) v).map Prod.fst ++ vs).Nodup := by
      rw [h1, List.map_append, List.append_assoc]
      simpa using hnd
    obtain ⟨t1, hp, hne, hm⟩ := ih _ (zadd_ne_nil _ _ _) h2 h3 hnd2
    refine ⟨t1, ?_, hne, ?_⟩
    · simp [PushMany, Push, pushInternal_tree a v false l t ht, hp]
    · rw [hm, h1]
      simp

/-- For pairwise distinct values `PushMany` on the empty collection succeeds and `Range(0,-1)`
returns the values in input order, whether or not the batch crosses the threshold. -/
theorem pushMany_distinct (a : Config) (vs : List String) (l : List String)
    (hnd : (l ++ vs).Nodup) :
    ∃ st, PushMany a vs ⟨l, [], []⟩ = (none, st) ∧ contents st = l ++ vs := by
  induction vs generalizing l with
  | nil => exact ⟨_, rfl, by simp [contents_ok]⟩
  | cons v vs ih =>
    by_cases hlt : (l.length : Int) + 1 < a.threshold
    · have hnd2 : ((l ++ [v]) ++ vs).Nodup := by simpa using hnd
      obtain ⟨st, hp, hc⟩ := ih (l ++ [v]) hnd2
      refine ⟨st, ?_, by simpa using hc⟩
      simp [PushMany, Push, pushInternal_list a v false l hlt, hp]
    · have hl : l.Nodup := (List.nodup_append.mp hnd).1
      have hvl : v ∉ l := by
        intro hmem
        exact (List.nodup_append.mp hnd).2.2 hmem (List.mem_cons_self _ _)
      have hk := zaddSeq_keys 0 l hl
      obtain ⟨hs, hb⟩ := zaddSeq_scores l hl
      obtain ⟨h1, h2, h3⟩ := zadd_right_fresh (zaddSeq 0 l []) v hs hb (by rw [hk]; exact hvl)
      have hnd2 : ((zadd (zaddSeq 0 l []) (((zaddSeq 0 l []).length : Int) + 1) v).map
          Prod.fst ++ vs).Nodup := by
        rw [h1, List.map_append, hk, List.append_assoc]
        simpa using hnd
      obtain ⟨t1, hp, hne, hm⟩ :=
        pushMany_tree_distinct a vs [] _ (zadd_ne_nil _ _ _) h2 h3 hnd2
      refine ⟨⟨[], t1, []⟩, ?_, ?_⟩
      · simp [PushMany, Push, pushInternal_grow a v false l (by omega), hp]
      · rw [contents_ok, if_neg hne, hm, h1, List.map_append, hk]
        simp

/-! ## Hysteresis -/

theorem modeChanges_le_one (x y z : String) (h : x = y ∨ y = z) :
    modeChanges [x, y, z] ≤ 1 := by
  have h1 : ∀ u w : String, (if u = w then 0 else 1) ≤ 1 := by
    intro u w; split <;> simp
  rcases h with h | h
  · subst h
    simpa [modeChanges] using h1 x z
  · subst h
    simpa [modeChanges] using h1 x y

theorem push_then_pop_modes (a : Config) (hs : 0 ≤ a.reverseThreshold)
    (hg : a.reverseThreshold + 1 < a.threshold) (v : String) (pl ql : Bool)
    (l : List String) (t : ZSet) (hnd : l.Nodup) (hv : v ∉ l) :
    modeOf ⟨l, t, []⟩ = modeOf (pushInternal a v pl ⟨l, t, []⟩).2 ∨
      modeOf (pushInternal a v pl ⟨l, t, []⟩).2 =
        modeOf (popInternal a ql (pushInternal a v pl ⟨l, t, []⟩).2).2 := by
  by_cases ht : t = []
  · subst ht
    by_cases hlt : (l.length : Int) + 1 < a.threshold
    · left
      rw [pushInternal_list a v pl l hlt]
      simp [modeOf_ok]
    · right
      rw [pushInternal_grow a v pl l (by omega)]
      generalize hsc : (if pl then -((zaddSeq 0 l []).length : Int) - 1
        else ((zaddSeq 0 l []).length : Int) + 1) = sc
      have hk := zaddSeq_keys 0 l hnd
      have hfresh : v ∉ (zaddSeq 0 l []).map Prod.fst := by rw [hk]; exact hv
      have ht1 : zadd (zaddSeq 0 l []) sc v = zaddSeq 0 l [] ++ [(v, sc)] :=
        zadd_fresh _ _ _ hfresh
      have hkeys : (zadd (zaddSeq 0 l []) sc v).map Prod.fst = l ++ [v] := by
        rw [ht1, List.map_append, hk]; rfl
      have hnd1 : ((zadd (zaddSeq 0 l []) sc v).map Prod.fst).Nodup := by
        rw [hkeys]
        exact List.Nodup.append hnd (List.nodup_singleton v) (by simpa using hv)
      have hlen1 : (zadd (zaddSeq 0 l []) sc v).length = l.length + 1 := by
        have := congrArg List.length hkeys
        simpa using this
      obtain ⟨m, rest, hm⟩ := exists_popTarget ql _ (zadd_ne_nil (zaddSeq 0 l []) sc v)
      have hmem := (popTarget_spec ql _ m rest hm).2
      have hz := length_zrem _ m hnd1 hmem
      rw [popInternal_tree a ql [] _ m rest hm]
      have hc : ¬ (((zrem (zadd (zaddSeq 0 l []) sc v) m).length : Int) ≤
          a.reverseThreshold) := by omega
      have hne : zrem (zadd (zaddSeq 0 l []) sc v) m ≠ [] := by
        intro h0
        rw [h0] at hc
        simp at hc
        omega
      rw [if_neg hc]
      simp [modeOf_ok, hne, zadd_ne_nil]
  · left
    rw [pushInternal_tree a v pl l t ht]
    simp [modeOf_ok, ht, zadd_ne_nil]

theorem pop_then_push_modes (a : Config) (hs : 0 ≤ a.reverseThreshold)
    (hg : a.reverseThreshold + 1 < a.threshold) (v : String) (pl ql : Bool)
    (l : List String) (t : ZSet) (hex : l = [] ∨ t = []) :
    modeOf ⟨l, t, []⟩ = modeOf (popInternal a ql ⟨l, t, []⟩).2 ∨
      modeOf (popInternal a ql ⟨l, t, []⟩).2 =
        modeOf (pushInternal a v pl (popInternal a ql ⟨l, t, []⟩).2).2 := by
  by_cases ht : t = []
  · subst ht
    left
    rw [popInternal_list]
    simp [modeOf_ok]
  · have hl : l = [] := hex.resolve_right ht
    subst hl
    obtain ⟨m, rest, hm⟩ := exists_popTarget ql t ht
    rw [popInternal_tree a ql [] t m rest hm]
    by_cases hc : ((zrem t m).length : Int) ≤ a.reverseThreshold
    · right
      rw [if_pos hc, List.nil_append]
      have hlt : ((zmembers (zrem t m)).length : Int) + 1 < a.threshold := by
        rw [zmembers_length]; omega
      rw [pushInternal_list a v pl _ hlt]
      simp [modeOf_ok]
    · left
      have hne : zrem t m ≠ [] := by
        intro h0
        rw [h0] at hc
        simp at hc
        omega
      rw [if_neg hc]
      simp [modeOf_ok, ht, hne]

/-- C5, amended: for thresholds with `0 <= reverseThreshold` and
`reverseThreshold + 1 < threshold`, in every state reached from the empty collection whose
list slot holds pairwise distinct elements other than `v`, a push of `v` followed by a pop
changes the mode at most once, and so does a pop followed by a push of `v` (for either end
of each call). -/
theorem no_oscillation (a : Config) (hs : 0 ≤ a.reverseThreshold)
    (hg : a.reverseThreshold + 1 < a.threshold) (ops : List Op) (v : String) (pl ql : Bool)
    (hnd : (runOps a ops Store.empty).list.Nodup)
    (hv : v ∉ (runOps a ops Store.empty).list) :
    modeChanges [modeOf (runOps a ops Store.empty),
      modeOf (pushInternal a v pl (runOps a ops Store.empty)).2,
      modeOf (popInternal a ql (pushInternal a v pl (runOps a ops Store.empty)).2).2] ≤ 1 ∧
    modeChanges [modeOf (runOps a ops Store.empty),
      modeOf (popInternal a ql (runOps a ops Store.empty)).2,
      modeOf (pushInternal a v pl (popInternal a ql (runOps a ops Store.empty)).2).2] ≤ 1 := by
  obtain ⟨l, t, hr, hex⟩ := runOps_inv a ops [] [] (Or.inl rfl)
  rw [show Store.empty = ⟨[], [], []⟩ from rfl] at hnd hv ⊢
  rw [hr] at hnd hv ⊢
  exact ⟨modeChanges_le_one _ _ _ (push_then_pop_modes a hs hg v pl ql l t hnd hv),
    modeChanges_le_one _ _ _ (pop_then_push_modes a hs hg v pl ql l t hex)⟩

/-- C5 at the thresholds of the test (`growThreshold = 8`, `reverseThreshold = 4`), from the
list of seven values: `Push val7; Pop` goes list, tree, tree and `Pop; Push val7` stays in
list mode. -/
theorem no_oscillation_witness :
    modeChanges [modeOf (runOps ⟨8, 4⟩
        (["val0", "val1", "val2", "val3", "val4", "val5", "val6"].map Op.push) Store.empty),
      modeOf (pushInternal ⟨8, 4⟩ "val7" false (runOps ⟨8, 4⟩
        (["val0", "val1", "val2", "val3", "val4", "val5", "val6"].map Op.push)
          Store.empty)).2,
      modeOf (popInternal ⟨8, 4⟩ false (pushInternal ⟨8, 4⟩ "val7" false (runOps ⟨8, 4⟩
        (["val0", "val1", "val2", "val3", "val4", "val5", "val6"].map Op.push)
          Store.empty)).2).2] ≤ 1 :=
  (no_oscillation ⟨8, 4⟩ (by decide) (by decide)
    (["val0", "val1", "val2", "val3", "val4", "val5", "val6"].map Op.push) "val7" false false
    (by decide) (by decide)).1

/-- C5 as stated fails when `reverseThreshold = growThreshold - 1`: with thresholds 8 and 7
and seven distinct values in the list, `Push val7` migrates to the tree (8 members) and the
`Pop` right after it leaves 7 <= 7 members and migrates back, two mode changes in one pair
of calls. -/
theorem oscillation_at_adjacent_thresholds :
    (0 : Int) ≤ 7 ∧ (7 : Int) < 8 ∧
    [modeOf (runOps ⟨8, 7⟩
        (["val0", "val1", "val2", "val3", "val4", "val5", "val6"].map Op.push) Store.empty),
      modeOf (Push ⟨8, 7⟩ "val7" (runOps ⟨8, 7⟩
        (["val0", "val1", "val2", "val3", "val4", "val5", "val6"].map Op.push)
          Store.empty)).2,
      modeOf (Pop ⟨8, 7⟩ (Push ⟨8, 7⟩ "val7" (runOps ⟨8, 7⟩
        (["val0", "val1", "val2", "val3", "val4", "val5", "val6"].map Op.push)
          Store.empty)).2).2] = ["list", "tree", "list"] ∧
    ¬ (modeChanges ["list", "tree", "list"] ≤ 1) := by
  decide

/-! ## Where the tree loses the deque order or elements -/

/-- C1 at thresholds 8 and 4: after `Push v0 .. v7` (tree mode, scores 0..6 and 8) two `LPop`s
leave 6 members, so `Push v8` takes the score 6 + 1 = 7 and lands before `v7`; `Range(0,-1)`
reads `v8` before `v7` and the next `Pop` returns `v7`, where the deque holds `v8` last and
returns it. -/
theorem tree_push_after_lpop_misplaced :
    (trace ⟨8, 4⟩
      [Op.push "v0", Op.push "v1", Op.push "v2", Op.push "v3", Op.push "v4", Op.push "v5",
        Op.push "v6", Op.push "v7", Op.lpop, Op.lpop, Op.push "v8", Op.pop] Store.empty).drop 10
      = [(("", none), ["v2", "v3", "v4", "v5", "v6", "v8", "v7"]),
         (("v7", none), ["v2", "v3", "v4", "v5", "v6", "v8"])] ∧
    (dequeTrace
      [Op.push "v0", Op.push "v1", Op.push "v2", Op.push "v3", Op.push "v4", Op.push "v5",
        Op.push "v6", Op.push "v7", Op.lpop, Op.lpop, Op.push "v8", Op.pop] []).drop 10
      = [(("", none), ["v2", "v3", "v4", "v5", "v6", "v7", "v8"]),
         (("v8", none), ["v2", "v3", "v4", "v5", "v6", "v7"])] := by
  decide

/-- C6 on the list `[a, a]`: `migrateToTree` writes the member `a` twice, which leaves one
entry (`a` with score 1), and `migrateToList` gives back the list `[a]`. -/
theorem migration_round_trip_drops_duplicate :
    migrateToTree ⟨["a", "a"], [], []⟩ = (none, ⟨[], [("a", 1)], []⟩) ∧
    migrateToList ⟨[], [("a", 1)], []⟩ = (none, ⟨["a"], [], []⟩) := by
  decide

/-- C8 at thresholds 8 and 4 on eight copies of `a`: `PushMany` succeeds, the eighth push
migrates the seven copies into one member, and `Range(0,-1)` returns `[a]`. -/
theorem pushMany_drops_duplicates :
    PushMany ⟨8, 4⟩ ["a", "a", "a", "a", "a", "a", "a", "a"] Store.empty =
      (none, ⟨[], [("a", 2)], []⟩) ∧
    contents ⟨[], [("a", 2)], []⟩ = ["a"] := by
  decide

/-! ## Migrations under storage faults -/

theorem migrateToTreeLoop_fault (i k : Nat) (vs l : List String) (t : ZSet)
    (rest : List Bool) (hk : k < vs.length) :
    migrateToTreeLoop i vs ⟨l, t, List.replicate k false ++ true :: rest⟩ =
      (some GoErr.storage, ⟨l, zaddSeq i (vs.take k) t, rest⟩) := by
  induction vs generalizing i k t with
  | nil => simp at hk
  | cons v vs ih =>
    cases k with
    | zero => simp [migrateToTreeLoop, Client.ZAdd, zaddSeq]
    | succ k =>
      have hk2 : k < vs.length := by simpa using hk
      simp [migrateToTreeLoop, Client.ZAdd, zaddSeq, List.replicate_succ, ih (i + 1) k _ hk2]

theorem migrateToListLoop_fault (k : Nat) (vs l : List String) (t : ZSet)
    (rest : List Bool) (hk : k < vs.length) :
    migrateToListLoop vs ⟨l, t, List.replicate k false ++ true :: rest⟩ =
      (some GoErr.storage, ⟨l ++ vs.take k, t, rest⟩) := by
  induction vs generalizing k l with
  | nil => simp at hk
  | cons v vs ih =>
    cases k with
    | zero => simp [migrateToListLoop, Client.RPush]
    | succ k =>
      have hk2 : k < vs.length := by simpa using hk
      simp [migrateToListLoop, Client.RPush, List.replicate_succ, ih k _ hk2]

theorem baseMigrateToTreeLoop_fault (i k : Nat) (vs l : List String) (t : ZSet)
    (rest : List Bool) (hk : k < vs.length) :
    AdaptiveRedisList.migrateToTreeLoop i vs ⟨l, t, List.replicate k false ++ true :: rest⟩ =
      (some GoErr.storage, ⟨l, zaddSeq i (vs.take k) t, rest⟩) := by
  induction vs generalizing i k t with
  | nil => simp at hk
  | cons v vs ih =>
    cases k with
    | zero => simp [AdaptiveRedisList.migrateToTreeLoop, Client.ZAdd, zaddSeq]
    | succ k =>
      have hk2 : k < vs.length := by simpa using hk
      simp [AdaptiveRedisList.migrateToTreeLoop, Client.ZAdd, zaddSeq, List.replicate_succ,
        ih (i + 1) k _ hk2]

/-- C9, amended: a migration that fails reports the error, and what it leaves depends on the
call that failed.  (1) When the initial read fails, both slots stay as they were, in all three
migrations; so they do when the `DEL` of `AdaptiveRedisList.migrateToTree` fails.  (2) In the
two migrations of `AdaptiveRedisListExt` the outcome `d` of the `DEL` is discarded; when after
a successful read the first `k` writes succeed and the next one fails, the new slot has
received the writes of the first `k` elements only, and the old slot is empty if the `DEL`
succeeded and untouched if the `DEL` failed.  (3) In `AdaptiveRedisList.migrateToTree` after a
successful read and `DEL` a failing write leaves the list slot empty and the tree slot with
the writes of the first `k` elements only added. -/
theorem failed_migration (l : List String) (t : ZSet) (k : Nat) (d : Bool)
    (rest : List Bool) :
    migrateToTree ⟨l, t, true :: rest⟩ = (some GoErr.storage, ⟨l, t, rest⟩) ∧
    migrateToList ⟨l, t, true :: rest⟩ = (some GoErr.storage, ⟨l, t, rest⟩) ∧
    AdaptiveRedisList.migrateToTree ⟨l, t, true :: rest⟩ =
      (some GoErr.storage, ⟨l, t, rest⟩) ∧
    AdaptiveRedisList.migrateToTree ⟨l, t, false :: true :: rest⟩ =
      (some GoErr.storage, ⟨l, t, rest⟩) ∧
    (k < l.length →
      migrateToTree ⟨l, t, false :: d :: (List.replicate k false ++ true :: rest)⟩ =
        (some GoErr.storage, ⟨if d then l else [], zaddSeq 0 (l.take k) t, rest⟩)) ∧
    (k < t.length →
      migrateToList ⟨l, t, false :: d :: (List.replicate k false ++ true :: rest)⟩ =
        (some GoErr.storage, ⟨l ++ (zmembers t).take k, if d then t else [], rest⟩)) ∧
    (k < l.length →
      AdaptiveRedisList.migrateToTree
          ⟨l, t, false :: false :: (List.replicate k false ++ true :: rest)⟩ =
        (some GoErr.storage, ⟨[], zaddSeq 0 (l.take k) t, rest⟩)) := by
  refine ⟨by simp [migrateToTree, Client.LRange], by simp [migrateToList, Client.ZRange],
    by simp [AdaptiveRedisList.migrateToTree, Client.LRange],
    by simp [AdaptiveRedisList.migrateToTree, Client.LRange, Client.Del],
    fun hk => ?_, fun hk => ?_, fun hk => ?_⟩
  · cases d
    · simp [migrateToTree, Client.LRange, Client.Del, slice_all,
        migrateToTreeLoop_fault 0 k l [] t rest hk]
    · simp [migrateToTree, Client.LRange, Client.Del, slice_all,
        migrateToTreeLoop_fault 0 k l l t rest hk]
  · have hk2 : k < (zmembers t).length := by rw [zmembers_length]; exact hk
    cases d
    · simp [migrateToList, Client.ZRange, Client.Del, slice_all,
        migrateToListLoop_fault k (zmembers t) l [] rest hk2]
    · simp [migrateToList, Client.ZRange, Client.Del, slice_all,
        migrateToListLoop_fault k (zmembers t) l t rest hk2]
  · simp [AdaptiveRedisList.migrateToTree, Client.LRange, Client.Del, slice_all,
      baseMigrateToTreeLoop_fault 0 k l [] t rest hk]

/-- C9 on the list `[a, b, c]` whose second `ZADD` fails, and on the tree `a, b, c` whose
second `RPUSH` fails: the error is reported and only `a` is left, in the new slot; when the
`DEL` failed before it, the old slot is still there beside the new one. -/
theorem failed_migration_witness :
    migrateToTree ⟨["a", "b", "c"], [], [false, false, false, true]⟩ =
      (some GoErr.storage, ⟨[], [("a", 0)], []⟩) ∧
    migrateToList ⟨[], [("a", 0), ("b", 1), ("c", 2)], [false, false, false, true]⟩ =
      (some GoErr.storage, ⟨["a"], [], []⟩) ∧
    migrateToTree ⟨["a", "b", "c"], [], [false, true, false, true]⟩ =
      (some GoErr.storage, ⟨["a", "b", "c"], [("a", 0)], []⟩) ∧
    AdaptiveRedisList.migrateToTree ⟨["a", "b", "c"], [], [false, false, false, true]⟩ =
      (some GoErr.storage, ⟨[], [("a", 0)], []⟩) :=
  ⟨((failed_migration ["a", "b", "c"] [] 1 false []).2.2.2.2.1 (by decide)).trans (by decide),
   ((failed_migration [] [("a", 0), ("b", 1), ("c", 2)] 1 false []).2.2.2.2.2.1
     (by decide)).trans (by decide),
   ((failed_migration ["a", "b", "c"] [] 1 true []).2.2.2.2.1 (by decide)).trans (by decide),
   ((failed_migration ["a", "b", "c"] [] 1 false []).2.2.2.2.2.2 (by decide)).trans
     (by decide)⟩

/-- C9 as stated fails: when the second `ZADD` of `migrateToTree` fails on the list `[a, b]`,
the error is reported but the list slot is already deleted; likewise the tree slot after a
failed `RPUSH` in `migrateToList`. -/
theorem failed_migration_loses_old_slot :
    (migrateToTree ⟨["a", "b"], [], [false, false, false, true]⟩).1 = some GoErr.storage ∧
    (migrateToTree ⟨["a", "b"], [], [false, false, false, true]⟩).2.list = [] ∧
    (migrateToList ⟨[], [("a", 0), ("b", 1)], [false, false, false, true]⟩).1
      = some GoErr.storage ∧
    (migrateToList ⟨[], [("a", 0), ("b", 1)], [false, false, false, true]⟩).2.tree = [] := by
  decide

/-! ## The scenario of the test: eight pushes, five pops -/

/-- C11, amended: with thresholds 8 and 4, after `Push` of `val0 .. val7` five `Pop()` calls
return `val7, val6, val5, val4, val3` in that order, `Mode()` is "list", and `Range(0,-1)`
holds the three elements left, `[val0, val1, val2]`. -/
theorem eight_pushes_five_pops :
    (trace ⟨8, 4⟩
      [Op.push "val0", Op.push "val1", Op.push "val2", Op.push "val3", Op.push "val4",
        Op.push "val5", Op.push "val6", Op.push "val7", Op.pop, Op.pop, Op.pop, Op.pop, Op.pop]
      Store.empty).drop 8 =
      [(("val7", none), ["val0", "val1", "val2", "val3", "val4", "val5", "val6"]),
       (("val6", none), ["val0", "val1", "val2", "val3", "val4", "val5"]),
       (("val5", none), ["val0", "val1", "val2", "val3", "val4"]),
       (("val4", none), ["val0", "val1", "val2", "val3"]),
       (("val3", none), ["val0", "val1", "val2"])] ∧
    modeOf (runOps ⟨8, 4⟩
      [Op.push "val0", Op.push "val1", Op.push "val2", Op.push "val3", Op.push "val4",
        Op.push "val5", Op.push "val6", Op.push "val7", Op.pop, Op.pop, Op.pop, Op.pop, Op.pop]
      Store.empty) = "list" := by
  decide

/-- C11 as stated fails: eight pushes and five pops leave three elements, so `Range(0,-1)` is
`[val0, val1, val2]` and not `[val0, val1]`. -/
theorem eight_pushes_five_pops_leave_three :
    contents (runOps ⟨8, 4⟩
      [Op.push "val0", Op.push "val1", Op.push "val2", Op.push "val3", Op.push "val4",
        Op.push "val5", Op.push "val6", Op.push "val7", Op.pop, Op.pop, Op.pop, Op.pop, Op.pop]
      Store.empty) ≠ ["val0", "val1"] := by
  decide

/-! ## Scores written by the grow migration -/

theorem baseMigrateToTreeLoop_ok (i : Nat) (vs l : List String) (t : ZSet) :
    AdaptiveRedisList.migrateToTreeLoop i vs ⟨l, t, []⟩ = (none, ⟨l, zaddSeq i vs t, []⟩) := by
  induction vs generalizing i t with
  | nil => rfl
  | cons v vs ih => simp [AdaptiveRedisList.migrateToTreeLoop, Client.ZAdd, zaddSeq, ih]

theorem baseMigrateToTree_ok (l : List String) (t : ZSet) :
    AdaptiveRedisList.migrateToTree ⟨l, t, []⟩ = (none, ⟨[], zaddSeq 0 l t, []⟩) := by
  simp [AdaptiveRedisList.migrateToTree, Client.LRange, Client.Del, slice_all,
    baseMigrateToTreeLoop_ok]

/-- C13: for a list slot of `n` pairwise distinct elements and an empty tree slot,
`migrateToTree` (of either type) leaves the list slot empty and the tree slot with exactly
one entry per element, the element at position `i` with score `i`, and `ZRange(0,-1)` on that
tree returns the original list. -/
theorem migrateToTree_scores (l : List String) (hnd : l.Nodup) :
    migrateToTree ⟨l, [], []⟩ =
      (none, ⟨[], (l.enumFrom 0).map (fun p => (p.2, (p.1 : Int))), []⟩) ∧
    AdaptiveRedisList.migrateToTree ⟨l, [], []⟩ =
      (none, ⟨[], (l.enumFrom 0).map (fun p => (p.2, (p.1 : Int))), []⟩) ∧
    ((l.enumFrom 0).map (fun p => (p.2, (p.1 : Int)))).length = l.length ∧
    (∀ i : Nat, ((l.enumFrom 0).map (fun p => (p.2, (p.1 : Int))))[i]? =
      (l[i]?).map (fun v => (v, (i : Int)))) ∧
    Client.ZRange 0 (-1) ⟨[], (l.enumFrom 0).map (fun p => (p.2, (p.1 : Int))), []⟩ =
      ((l, none), ⟨[], (l.enumFrom 0).map (fun p => (p.2, (p.1 : Int))), []⟩) := by
  have hf := zaddSeq_fresh 0 l [] hnd (by simp)
  rw [List.nil_append] at hf
  have hz := zmembers_zaddSeq 0 l hnd
  rw [hf] at hz
  refine ⟨by rw [migrateToTree_ok, hf], by rw [baseMigrateToTree_ok, hf], by simp, ?_, ?_⟩
  · intro i
    rw [List.getElem?_map, List.getElem?_enumFrom]
    cases l[i]? <;> simp
  · simp [Client.ZRange, slice_all, hz]

/-- C13 on the list `[c, a, b]`: the tree gets `c` with score 0, `a` with score 1 and `b`
with score 2, and is read back as `[c, a, b]`. -/
theorem migrateToTree_scores_witness :
    migrateToTree ⟨["c", "a", "b"], [], []⟩ =
      (none, ⟨[], [("c", 0), ("a", 1), ("b", 2)], []⟩) ∧
    (Client.ZRange 0 (-1) ⟨[], [("c", 0), ("a", 1), ("b", 2)], []⟩).1 =
      (["c", "a", "b"], none) :=
  ⟨(migrateToTree_scores ["c", "a", "b"] (by decide)).1,
   congrArg Prod.fst (migrateToTree_scores ["c", "a", "b"] (by decide)).2.2.2.2⟩

/-! ## Indexed reads -/

theorem slice_at {α : Type} (xs : List α) (i : Nat) (v : α) (h : xs[i]? = some v) :
    slice xs (i : Int) (i : Int) = [v] := by
  obtain ⟨hlt, hv⟩ := List.getElem?_eq_some_iff.mp h
  have h1 : ¬ ((i : Int) < 0) := by omega
  have h2 : ¬ ((xs.length : Int) ≤ (i : Int)) := by omega
  simp only [slice, h1, if_false, gt_iff_lt, lt_self_iff_false, ge_iff_le, h2, or_self,
    Int.toNat_ofNat, sub_self, zero_add, Int.toNat_one]
  rw [List.drop_eq_getElem_cons hlt, hv]
  simp

/-- C15: in either mode `Get(i)` for an index `i` inside the collection returns the `i`-th
element of `Range(0,-1)`; in tree mode that is the member of rank `i` in ascending score
order, whatever the sign of the scores, and in list mode the `i`-th element of the list. -/
theorem get_is_range_element (l : List String) (t : ZSet) (i : Nat) (v : String)
    (h : (contents ⟨l, t, []⟩)[i]? = some v) :
    AdaptiveRedisList.Get (i : Int) ⟨l, t, []⟩ = ((v, none), ⟨l, t, []⟩) ∧
    (t ≠ [] → (zmembers t)[i]? = some v) ∧ (t = [] → l[i]? = some v) := by
  rw [contents_ok] at h
  by_cases ht : t = []
  · subst ht
    simp only [if_true] at h
    obtain ⟨hlt, hv⟩ := List.getElem?_eq_some_iff.mp h
    have h1 : ¬ ((i : Int) < 0) := by omega
    refine ⟨?_, fun hne => absurd rfl hne, fun _ => h⟩
    simp [AdaptiveRedisList.Get, baseIsTreeMode_ok, Client.LIndex, h1, h]
  · rw [if_neg ht] at h
    have hte : t.isEmpty = false := by cases t <;> simp_all
    refine ⟨?_, fun _ => h, fun h0 => absurd h0 ht⟩
    simp [AdaptiveRedisList.Get, baseIsTreeMode_ok, hte, Client.ZRange, slice_at _ i v h]

/-- C15 on a tree with negative scores: `b` (score -2) has rank 0, `c` (score -1) rank 1 and
`a` (score 3) rank 2, and `Get(1)` returns `c`. -/
theorem get_is_range_element_witness :
    AdaptiveRedisList.Get 1 ⟨[], [("a", 3), ("b", -2), ("c", -1)], []⟩ =
      (("c", none), ⟨[], [("a", 3), ("b", -2), ("c", -1)], []⟩) :=
  (get_is_range_element [] [("a", 3), ("b", -2), ("c", -1)] 1 "c" (by decide)).1

/-! ## A failing type probe -/

/-- C12, amended: when the type probe of the tree slot fails, `isTreeMode` returns the error
but every caller discards it and goes on as in list mode, whatever the tree slot holds:
`Mode()` reports "list", `Pop`/`LPop` pop the list slot, `Push`/`LPush` write to the list slot
below the threshold and run the grow migration at the threshold, `Range` reads the list slot
and `Get` is `LINDEX` on it. -/
theorem failed_probe_is_list_mode (a : Config) (l : List String) (t : ZSet) (v : String)
    (left : Bool) (start stop index : Int) :
    isTreeMode ⟨l, t, [true]⟩ = ((false, some GoErr.storage), ⟨l, t, []⟩) ∧
    Mode ⟨l, t, [true]⟩ = ("list", ⟨l, t, []⟩) ∧
    popInternal a left ⟨l, t, [true]⟩ =
      ((dequeStep (if left then Op.lpop else Op.pop) l).1,
        ⟨(dequeStep (if left then Op.lpop else Op.pop) l).2, t, []⟩) ∧
    pushInternal a v left ⟨l, t, [false, true]⟩ =
      (if (l.length : Int) + 1 < a.threshold
        then (none, ⟨if left then v :: l else l ++ [v], t, []⟩)
        else (none, ⟨[], zadd (zaddSeq 0 l t)
          (if left then -((zaddSeq 0 l t).length : Int) - 1
            else ((zaddSeq 0 l t).length : Int) + 1) v, []⟩)) ∧
    AdaptiveRedisList.Range start stop ⟨l, t, [true]⟩ =
      ((slice l start stop, none), ⟨l, t, []⟩) ∧
    AdaptiveRedisList.Get index ⟨l, t, [true]⟩ = Client.LIndex index ⟨l, t, []⟩ := by
  have hp : isTreeMode ⟨l, t, [true]⟩ = ((false, some GoErr.storage), ⟨l, t, []⟩) := by
    simp [isTreeMode, Client.TypeOf]
  have hb : AdaptiveRedisList.isTreeMode ⟨l, t, [true]⟩ =
      ((false, some GoErr.storage), ⟨l, t, []⟩) := by
    simp [AdaptiveRedisList.isTreeMode, Client.TypeOf]
  refine ⟨hp, by simp [Mode, hp], ?_, ?_, ?_, ?_⟩
  · cases left with
    | true => cases l <;> simp [popInternal, hp, Client.LPop, dequeStep]
    | false =>
      cases hl : l.getLast? <;> simp [popInternal, hp, Client.RPop, dequeStep, hl]
  · by_cases hlt : (l.length : Int) + 1 < a.threshold
    · have h1 : ¬ (a.threshold ≤ (l.length : Int) + 1) := by omega
      rw [if_pos hlt]
      cases left <;>
        simp [pushInternal, Client.LLen, isTreeMode, Client.TypeOf, pushInternalWrite,
          Client.LPush, Client.RPush, h1]
    · have h1 : a.threshold ≤ (l.length : Int) + 1 := by omega
      rw [if_neg hlt]
      simp [pushInternal, Client.LLen, isTreeMode, Client.TypeOf, pushInternalWrite,
        Client.ZCard, Client.ZAdd, h1, migrateToTree_ok]
  · simp [AdaptiveRedisList.Range, hb, Client.LRange]
  · simp [AdaptiveRedisList.Get, hb]

/-- C12 as stated fails: with the member `a` in the tree slot and a failing probe, `Mode()`
answers "list" (it has no error result), and `Pop()` takes the list branch and answers
`redis.Nil` as on an empty collection. -/
theorem failed_probe_defaults_to_list :
    (isTreeMode ⟨[], [("a", 1)], [true]⟩).1.2 = some GoErr.storage ∧
    (Mode ⟨[], [("a", 1)], [true]⟩).1 = "list" ∧
    Pop ⟨8, 4⟩ ⟨[], [("a", 1)], [true]⟩ =
      (("", some GoErr.redisNil), ⟨[], [("a", 1)], []⟩) := by
  decide

/-! ## The grow migration of `AdaptiveRedisList.Push` -/

/-- A right push with the score `ZCard + 1` into a tree whose scores increase and stay at
most the cardinality: the pushed member ends up with the highest rank. -/
theorem zmembers_zadd_right (t : ZSet) (v : String) (hs : t.Sorted (fun x y => x.2 < y.2))
    (hb : ∀ e ∈ t, e.2 ≤ (t.length : Int)) :
    zmembers (zadd t ((t.length : Int) + 1) v) =
      (t.filter (fun e => decide (e.1 ≠ v))).map Prod.fst ++ [v] := by
  have hsorted : (zadd t ((t.length : Int) + 1) v).Sorted (fun x y => x.2 < y.2) := by
    rw [zadd]
    refine List.pairwise_append.mpr ⟨hs.filter _, List.pairwise_singleton _ _, ?_⟩
    intro x hx y hy
    rw [List.mem_singleton] at hy
    subst hy
    have := hb x (List.mem_of_mem_filter hx)
    show x.2 < (t.length : Int) + 1
    omega
  rw [zmembers_of_scores_increasing _ hsorted, zadd, List.map_append]
  rfl

theorem basePushWrite_tree (v : String) (l : List String) (t : ZSet) (ht : t ≠ []) :
    AdaptiveRedisList.PushWrite v ⟨l, t, []⟩ =
      (none, ⟨l, zadd t ((t.length : Int) + 1) v, []⟩) := by
  cases t with
  | nil => exact absurd rfl ht
  | cons e t =>
    simp [AdaptiveRedisList.PushWrite, baseIsTreeMode_ok, Client.ZCard, Client.ZAdd]

/-- Where `AdaptiveRedisList.Push(v)` does grow: on a non-empty list slot of pairwise distinct
elements (tree slot empty) with `LLen + 1 >= threshold`, the grow migration runs first and `v`
is added to the resulting tree with the score `ZCard + 1`: after the call the list slot is
empty, the probe reports tree mode, and `v` is the member of highest rank. -/
theorem base_push_migrates (threshold : Int) (l : List String) (v : String)
    (hne : l ≠ []) (hnd : l.Nodup) (hg : threshold ≤ (l.length : Int) + 1) :
    AdaptiveRedisList.Push threshold v ⟨l, [], []⟩ =
      (none, ⟨[], zadd (zaddSeq 0 l []) (((zaddSeq 0 l []).length : Int) + 1) v, []⟩) ∧
    zmembers (zaddSeq 0 l []) = l ∧
    (AdaptiveRedisList.isTreeMode
      ⟨[], zadd (zaddSeq 0 l []) (((zaddSeq 0 l []).length : Int) + 1) v, []⟩).1 =
        (true, none) ∧
    (zmembers (zadd (zaddSeq 0 l []) (((zaddSeq 0 l []).length : Int) + 1) v)).getLast? =
      some v := by
  have hk := zaddSeq_keys 0 l hnd
  have ht0 : zaddSeq 0 l [] ≠ [] := by
    intro h0
    rw [h0] at hk
    exact hne hk.symm
  obtain ⟨hs, hb⟩ := zaddSeq_scores l hnd
  refine ⟨?_, zmembers_zaddSeq 0 l hnd, ?_, ?_⟩
  · simp [AdaptiveRedisList.Push, Client.LLen, baseIsTreeMode_ok, hg, baseMigrateToTree_ok,
      basePushWrite_tree v [] _ ht0]
  · have hz := zadd_ne_nil (zaddSeq 0 l []) (((zaddSeq 0 l []).length : Int) + 1) v
    have hte : (zadd (zaddSeq 0 l []) (((zaddSeq 0 l []).length : Int) + 1) v).isEmpty
        = false := by
      cases hzz : zadd (zaddSeq 0 l []) (((zaddSeq 0 l []).length : Int) + 1) v with
      | nil => exact absurd hzz hz
      | cons e t => rfl
    rw [baseIsTreeMode_ok, hte]
    rfl
  · rw [zmembers_zadd_right _ v hs hb]
    simp

/-- At threshold 3 on the list `[a, b]`, `AdaptiveRedisList.Push(c)` migrates `a` and `b`
with the scores 0 and 1 and adds `c` with the score 3. -/
theorem base_push_migrates_witness :
    AdaptiveRedisList.Push 3 "c" ⟨["a", "b"], [], []⟩ =
      (none, ⟨[], [("a", 0), ("b", 1), ("c", 3)], []⟩) :=
  (base_push_migrates 3 ["a", "b"] "c" (by decide) (by decide) (by decide)).1.trans
    (by decide)

/-- C14 on the empty store with threshold 1, where `LLen + 1 >= threshold`: the migration of
`AdaptiveRedisList.Push(a)` writes nothing, the second probe still reports list mode, and `a`
is appended to the list slot; `AdaptiveRedisListExt.Push(a)` on the same input ends in tree
mode with the member `a`. -/
theorem base_push_on_empty_stays_list :
    ((Client.LLen Store.empty).1.1 + 1 ≥ 1) ∧
    AdaptiveRedisList.Push 1 "a" Store.empty = (none, ⟨["a"], [], []⟩) ∧
    (AdaptiveRedisList.isTreeMode ⟨["a"], [], []⟩).1 = (false, none) ∧
    Push ⟨1, 0⟩ "a" Store.empty = (none, ⟨[], [("a", 1)], []⟩) ∧
    (AdaptiveRedisList.isTreeMode ⟨[], [("a", 1)], []⟩).1 = (true, none) := by
  decide

/-- The second input on which C14 fails: on the list `[a, a, a, a]` the migration leaves the single
member `a` with score 3, so `Push(b)` gets the score 1 + 1 = 2 and ranks before `a`. -/
theorem base_push_after_duplicates_not_last :
    AdaptiveRedisList.Push 5 "b" ⟨["a", "a", "a", "a"], [], []⟩ =
      (none, ⟨[], [("a", 3), ("b", 2)], []⟩) ∧
    zmembers [("a", 3), ("b", 2)] = ["b", "a"] := by
  decide

/-! ## Scores of pushes into the tree -/

theorem zmembers_append_max (t : ZSet) (v : String) (sc : Int) (h : ∀ e ∈ t, e.2 < sc) :
    zmembers (t ++ [(v, sc)]) = zmembers t ++ [v] := by
  have hz : (t ++ [(v, sc)]).insertionSort (fun x y => zle x y = true) =
      t.insertionSort (fun x y => zle x y = true) ++ [(v, sc)] := by
    apply zsort_eq_of_perm
    · exact (List.perm_insertionSort _ t).append_right _
    · refine List.pairwise_append.mpr ⟨zsort_sorted t, List.pairwise_singleton _ _, ?_⟩
      intro x hx y hy
      rw [List.mem_singleton] at hy
      subst hy
      exact (zle_iff _ _).mpr (Or.inl (h x ((List.mem_insertionSort _).mp hx)))
  simp [zmembers, hz]

theorem zmembers_append_min (t : ZSet) (v : String) (sc : Int) (h : ∀ e ∈ t, sc < e.2) :
    zmembers (t ++ [(v, sc)]) = v :: zmembers t := by
  have hz : (t ++ [(v, sc)]).insertionSort (fun x y => zle x y = true) =
      (v, sc) :: t.insertionSort (fun x y => zle x y = true) := by
    apply zsort_eq_of_perm
    · exact ((List.perm_insertionSort _ t).cons _).trans (List.perm_append_singleton _ _).symm
    · refine List.pairwise_cons.mpr ⟨?_, zsort_sorted t⟩
      intro x hx
      exact (zle_iff _ _).mpr (Or.inl (h x ((List.mem_insertionSort _).mp hx)))
  simp [zmembers, hz]

/-- The write of a push of a new value into a tree whose scores lie between minus the
cardinality and the cardinality: the entry is added with a score beyond all others on its
side, the ranking grows at that end, and the bounds hold again. -/
theorem zadd_end (t : ZSet) (v : String) (left : Bool)
    (hb : ∀ e ∈ t, -(t.length : Int) ≤ e.2 ∧ e.2 ≤ (t.length : Int))
    (hv : v ∉ t.map Prod.fst) :
    zadd t (if left then -(t.length : Int) - 1 else (t.length : Int) + 1) v =
      t ++ [(v, if left then -(t.length : Int) - 1 else (t.length : Int) + 1)] ∧
    (∀ e ∈ t, if left then (-(t.length : Int) - 1 < e.2) else (e.2 < (t.length : Int) + 1)) ∧
    zmembers (t ++ [(v, if left then -(t.length : Int) - 1 else (t.length : Int) + 1)]) =
      (if left then v :: zmembers t else zmembers t ++ [v]) ∧
    (∀ e ∈ t ++ [(v, if left then -(t.length : Int) - 1 else (t.length : Int) + 1)],
      -((t ++ [(v, if left then -(t.length : Int) - 1 else (t.length : Int) + 1)]).length : Int)
        ≤ e.2 ∧
      e.2 ≤ ((t ++ [(v, if left then -(t.length : Int) - 1
        else (t.length : Int) + 1)]).length : Int)) := by
  refine ⟨zadd_fresh t _ v hv, ?_, ?_, ?_⟩
  · intro e he
    have := hb e he
    cases left
    · simp only [Bool.false_eq_true, if_false]; omega
    · simp only [if_true]; omega
  · cases left
    · simp only [Bool.false_eq_true, if_false]
      exact zmembers_append_max t v _ (fun e he => by have := hb e he; omega)
    · simp only [if_true]
      exact zmembers_append_min t v _ (fun e he => by have := hb e he; omega)
  · intro e he
    rw [List.length_append, List.length_singleton]
    rcases List.mem_append.mp he with h1 | h1
    · have := hb e h1
      push_cast
      omega
    · rw [List.mem_singleton] at h1
      subst h1
      cases left
      · simp only [Bool.false_eq_true, if_false]; push_cast; omega
      · simp only [if_true]; push_cast; omega

theorem zaddSeq_bounds (l : List String) (hnd : l.Nodup) :
    ∀ e ∈ zaddSeq 0 l [], -((zaddSeq 0 l []).length : Int) ≤ e.2 ∧
      e.2 ≤ ((zaddSeq 0 l []).length : Int) := by
  have hf := zaddSeq_fresh 0 l [] hnd (by simp)
  rw [List.nil_append] at hf
  have hb := (zaddSeq_scores l hnd).2
  intro e he
  refine ⟨?_, hb e he⟩
  rw [hf] at he
  obtain ⟨p, -, rfl⟩ := List.mem_map.mp he
  have h0 : (0 : Int) ≤ (p.1 : Int) := Int.ofNat_nonneg _
  have h1 : (0 : Int) ≤ ((zaddSeq 0 l []).length : Int) := Int.ofNat_nonneg _
  show -((zaddSeq 0 l []).length : Int) ≤ (p.1 : Int)
  omega

/-- One push of a new value on a store that holds the deque `d` in one of its two forms. -/
theorem pushInternal_order (a : Config) (v : String) (left : Bool) (l : List String)
    (t : ZSet) (d : List String)
    (hl : t = [] → l = d) (ht : t ≠ [] → l = [] ∧ zmembers t = d)
    (hb : ∀ e ∈ t, -(t.length : Int) ≤ e.2 ∧ e.2 ≤ (t.length : Int))
    (hd : d.Nodup) (hv : v ∉ d) :
    ∃ l1 t1, pushInternal a v left ⟨l, t, []⟩ = (none, ⟨l1, t1, []⟩) ∧
      (t1 = [] → l1 = (if left then v :: d else d ++ [v])) ∧
      (t1 ≠ [] → l1 = [] ∧ zmembers t1 = (if left then v :: d else d ++ [v])) ∧
      (∀ e ∈ t1, -(t1.length : Int) ≤ e.2 ∧ e.2 ≤ (t1.length : Int)) ∧
      (t ≠ [] → ∃ sc, t1 = t ++ [(v, sc)] ∧
        ∀ e ∈ t, if left then sc < e.2 else e.2 < sc) := by
  by_cases hte : t = []
  · subst hte
    have hld : l = d := hl rfl
    subst hld
    by_cases hlt : (l.length : Int) + 1 < a.threshold
    · refine ⟨_, _, pushInternal_list a v left l hlt, fun _ => rfl, fun h => absurd rfl h,
        by simp, fun h => absurd rfl h⟩
    · have hk := zaddSeq_keys 0 l hd
      obtain ⟨h1, -, h3, h4⟩ := zadd_end (zaddSeq 0 l []) v left (zaddSeq_bounds l hd)
        (by rw [hk]; exact hv)
      refine ⟨_, _, pushInternal_grow a v left l (by omega), ?_, ?_, ?_,
        fun h => absurd rfl h⟩
      · intro h0
        exact absurd h0 (zadd_ne_nil _ _ _)
      · intro _
        refine ⟨rfl, ?_⟩
        rw [h1, h3, zmembers_zaddSeq 0 l hd]
      · rw [h1]
        exact h4
  · obtain ⟨hl0, hz⟩ := ht hte
    subst hl0
    have hvt : v ∉ t.map Prod.fst := by
      rw [← mem_zmembers, hz]; exact hv
    obtain ⟨h1, h2, h3, h4⟩ := zadd_end t v left hb hvt
    refine ⟨_, _, pushInternal_tree a v left [] t hte, ?_, ?_, ?_, ?_⟩
    · intro h0
      exact absurd h0 (zadd_ne_nil _ _ _)
    · intro _
      refine ⟨rfl, ?_⟩
      rw [h1, h3, hz]
    · rw [h1]
      exact h4
    · intro _
      refine ⟨_, h1, fun e he => ?_⟩
      have := h2 e he
      cases left <;> simpa using this

theorem pushes_run_order (a : Config) (ops : List Op) (l : List String) (t : ZSet)
    (d : List String) (hp : ∀ op ∈ ops, op.isPush = true)
    (hl : t = [] → l = d) (ht : t ≠ [] → l = [] ∧ zmembers t = d)
    (hb : ∀ e ∈ t, -(t.length : Int) ≤ e.2 ∧ e.2 ≤ (t.length : Int))
    (hnd : (d ++ pushedValues ops).Nodup) :
    ∃ l1 t1, runOps a ops ⟨l, t, []⟩ = ⟨l1, t1, []⟩ ∧
      (t1 = [] → l1 = dequeRun ops d) ∧
      (t1 ≠ [] → l1 = [] ∧ zmembers t1 = dequeRun ops d) ∧
      (∀ e ∈ t1, -(t1.length : Int) ≤ e.2 ∧ e.2 ≤ (t1.length : Int)) ∧
      (dequeRun ops d).Nodup ∧
      (∀ x ∈ dequeRun ops d, x ∈ d ∨ x ∈ pushedValues ops) := by
  induction ops generalizing l t d with
  | nil =>
    refine ⟨l, t, rfl, hl, ht, hb, ?_, fun x hx => Or.inl hx⟩
    simpa [pushedValues, dequeRun] using hnd
  | cons op ops ih =>
    have hp2 : ∀ o ∈ ops, o.isPush = true := fun o ho => hp o (List.mem_cons_of_mem _ ho)
    have hop := hp op (List.mem_cons_self _ _)
    have key : ∀ (v : String) (left : Bool),
        (step a op ⟨l, t, []⟩).2 = (pushInternal a v left ⟨l, t, []⟩).2 →
        (dequeStep op d).2 = (if left then v :: d else d ++ [v]) →
        pushedValues (op :: ops) = v :: pushedValues ops →
        ∃ l1 t1, runOps a (op :: ops) ⟨l, t, []⟩ = ⟨l1, t1, []⟩ ∧
          (t1 = [] → l1 = dequeRun (op :: ops) d) ∧
          (t1 ≠ [] → l1 = [] ∧ zmembers t1 = dequeRun (op :: ops) d) ∧
          (∀ e ∈ t1, -(t1.length : Int) ≤ e.2 ∧ e.2 ≤ (t1.length : Int)) ∧
          (dequeRun (op :: ops) d).Nodup ∧
          (∀ x ∈ dequeRun (op :: ops) d, x ∈ d ∨ x ∈ pushedValues (op :: ops)) := by
      intro v left hstep hdq hpv
      rw [hpv] at hnd
      have hmid := List.nodup_middle.mp hnd
      rw [List.nodup_cons] at hmid
      have hvd : v ∉ d := fun h => hmid.1 (List.mem_append_left _ h)
      have hdn : d.Nodup := (List.nodup_append.mp hmid.2).1
      obtain ⟨l1, t1, hpush, h1, h2, h3, -⟩ :=
        pushInternal_order a v left l t d hl ht hb hdn hvd
      have hnd2 : ((if left then v :: d else d ++ [v]) ++ pushedValues ops).Nodup := by
        cases left
        · simpa using hnd
        · simpa using List.nodup_middle.mp hnd
      obtain ⟨l2, t2, hr, k1, k2, k3, k4, k5⟩ := ih l1 t1 _ hp2 h1 h2 h3 hnd2
      have hrun : runOps a (op :: ops) ⟨l, t, []⟩ = ⟨l2, t2, []⟩ := by
        simp only [runOps, List.foldl_cons] at hr ⊢
        rw [hstep, hpush]
        exact hr
      have hdeq : dequeRun (op :: ops) d =
          dequeRun ops (if left then v :: d else d ++ [v]) := by
        simp only [dequeRun, List.foldl_cons, hdq]
      rw [hdeq, hpv]
      refine ⟨l2, t2, hrun, k1, k2, k3, k4, fun x hx => ?_⟩
      rcases k5 x hx with h | h
      · cases left
        · simp only [Bool.false_eq_true, if_false, List.mem_append, List.mem_singleton] at h
          rcases h with h | h
          · exact Or.inl h
          · exact Or.inr (h ▸ List.mem_cons_self _ _)
        · simp only [if_true, List.mem_cons] at h
          rcases h with h | h
          · exact Or.inr (h ▸ List.mem_cons_self _ _)
          · exact Or.inl h
      · exact Or.inr (List.mem_cons_of_mem _ h)
    cases op with
    | push v => exact key v false rfl rfl rfl
    | lpush v => exact key v true rfl rfl rfl
    | pop => simp [Op.isPush] at hop
    | lpop => simp [Op.isPush] at hop
    | pushMany vs => simp [Op.isPush] at hop

/-- C16: after any run of `Push` and `LPush` calls with pairwise distinct values on the empty
collection, `Range(0,-1)` is the reference deque, every score in the tree lies between minus
the cardinality and the cardinality, and a further `Push` (`LPush`) of a new value in tree
mode adds its entry with a score strictly above (below) every score in the tree. -/
theorem pushes_keep_deque_order (a : Config) (ops : List Op) (v : String) (left : Bool)
    (hp : ∀ op ∈ ops, op.isPush = true) (hnd : (pushedValues ops ++ [v]).Nodup) :
    contents (runOps a ops Store.empty) = dequeRun ops [] ∧
    (∀ e ∈ (runOps a ops Store.empty).tree,
      -((runOps a ops Store.empty).tree.length : Int) ≤ e.2 ∧
        e.2 ≤ ((runOps a ops Store.empty).tree.length : Int)) ∧
    ((runOps a ops Store.empty).tree ≠ [] →
      ∃ sc, pushInternal a v left (runOps a ops Store.empty) =
          (none, ⟨[], (runOps a ops Store.empty).tree ++ [(v, sc)], []⟩) ∧
        ∀ e ∈ (runOps a ops Store.empty).tree, if left then sc < e.2 else e.2 < sc) ∧
    contents (pushInternal a v left (runOps a ops Store.empty)).2 =
      (if left then v :: dequeRun ops [] else dequeRun ops [] ++ [v]) := by
  have hnd0 : ([] ++ pushedValues ops).Nodup := by
    rw [List.nil_append]
    exact (List.nodup_append.mp hnd).1
  obtain ⟨l, t, hr, h1, h2, h3, h4, h5⟩ :=
    pushes_run_order a ops [] [] [] hp (fun _ => rfl) (fun h => absurd rfl h) (by simp) hnd0
  have hv : v ∉ dequeRun ops [] := by
    intro hmem
    rcases h5 v hmem with h | h
    · simp at h
    · exact (List.nodup_append.mp hnd).2.2 h (List.mem_singleton_self v)
  obtain ⟨l1, t1, hpush, k1, k2, k3, k4⟩ :=
    pushInternal_order a v left l t (dequeRun ops []) h1 h2 h3 h4 hv
  rw [show Store.empty = ⟨[], [], []⟩ from rfl, hr, hpush]
  refine ⟨?_, h3, ?_, ?_⟩
  · rw [contents_ok]
    by_cases ht : t = []
    · rw [if_pos ht]; exact h1 ht
    · rw [if_neg ht]; exact (h2 ht).2
  · intro ht
    obtain ⟨sc, hsc, hlt⟩ := k4 ht
    have hl1 : l1 = [] := (k2 (by rw [hsc]; simp)).1
    exact ⟨sc, by rw [hl1, hsc], hlt⟩
  · rw [contents_ok]
    by_cases ht : t1 = []
    · rw [if_pos ht]; exact k1 ht
    · rw [if_neg ht]; exact (k2 ht).2

/-- C16 at thresholds 3 and 1: after `Push a`, `LPush b`, `Push c` (the third call migrates
`[b, a]` and the tree is `b:0, a:1, c:3`) an `LPush d` takes the score -4 and `Range(0,-1)`
reads `[d, b, a, c]`. -/
theorem pushes_keep_deque_order_witness :
    pushInternal ⟨3, 1⟩ "d" true
        (runOps ⟨3, 1⟩ [Op.push "a", Op.lpush "b", Op.push "c"] Store.empty) =
      (none, ⟨[], [("b", 0), ("a", 1), ("c", 3), ("d", -4)], []⟩) ∧
    contents (pushInternal ⟨3, 1⟩ "d" true
        (runOps ⟨3, 1⟩ [Op.push "a", Op.lpush "b", Op.push "c"] Store.empty)).2 =
      ["d", "b", "a", "c"] :=
  ⟨by decide,
   (pushes_keep_deque_order ⟨3, 1⟩ [Op.push "a", Op.lpush "b", Op.push "c"] "d" true
     (by decide) (by decide)).2.2.2.trans (by decide)⟩

/-! ## Sizes in the two modes -/

theorem dequeStep_pop_sublist (left : Bool) (l : List String) :
    ((dequeStep (if left then Op.lpop else Op.pop) l).2).Sublist l := by
  cases left with
  | true =>
    cases l with
    | nil => simp [dequeStep]
    | cons v rest => simp [dequeStep]
  | false =>
    cases hl : l.getLast? with
    | none => simp [dequeStep, hl]
    | some v => simpa [dequeStep, hl] using List.dropLast_sublist l

theorem sizeInv_push (a : Config) (hg : a.reverseThreshold < a.threshold) (v : String)
    (left : Bool) (l : List String) (t : ZSet) (hinv : SizeInv a l t)
    (hvl : v ∉ l) (hvt : v ∉ t.map Prod.fst) :
    ∃ l1 t1, pushInternal a v left ⟨l, t, []⟩ = (none, ⟨l1, t1, []⟩) ∧ SizeInv a l1 t1 ∧
      (∀ x, x ∈ l1 ∨ x ∈ t1.map Prod.fst → x = v ∨ x ∈ l ∨ x ∈ t.map Prod.fst) := by
  obtain ⟨hex, hln, htn, hsl, hst⟩ := hinv
  by_cases hte : t = []
  · subst hte
    by_cases hlt : (l.length : Int) + 1 < a.threshold
    · refine ⟨_, _, pushInternal_list a v left l hlt, ⟨Or.inr rfl, ?_, by simp, ?_, ?_⟩, ?_⟩
      · cases left
        · simpa using List.Nodup.append hln (List.nodup_singleton v) (by simpa using hvl)
        · simpa using List.nodup_cons.mpr ⟨hvl, hln⟩
      · intro _
        cases left <;> simp <;> omega
      · intro h; exact absurd rfl h
      · intro x hx
        cases left <;> simp at hx <;> tauto
    · have hk := zaddSeq_keys 0 l hln
      generalize hsc : (if left then -((zaddSeq 0 l []).length : Int) - 1
        else ((zaddSeq 0 l []).length : Int) + 1) = sc
      have hgrow := pushInternal_grow a v left l (by omega)
      rw [hsc] at hgrow
      have h1 : zadd (zaddSeq 0 l []) sc v = zaddSeq 0 l [] ++ [(v, sc)] :=
        zadd_fresh _ _ _ (by rw [hk]; exact hvl)
      have hkeys : (zadd (zaddSeq 0 l []) sc v).map Prod.fst = l ++ [v] := by
        rw [h1, List.map_append, hk]; rfl
      have hlen : (zadd (zaddSeq 0 l []) sc v).length = l.length + 1 := by
        have := congrArg List.length hkeys
        simpa using this
      refine ⟨_, _, hgrow, ⟨Or.inl rfl, List.nodup_nil, ?_, ?_, ?_⟩, ?_⟩
      · rw [hkeys]
        exact List.Nodup.append hln (List.nodup_singleton v) (by simpa using hvl)
      · intro h0; exact absurd h0 (zadd_ne_nil _ _ _)
      · intro _
        rw [hlen]; push_cast; omega
      · intro x hx
        rw [hkeys] at hx
        simp at hx
        tauto
  · have hl0 : l = [] := hex.resolve_right hte
    subst hl0
    generalize hsc : (if left then -(t.length : Int) - 1 else (t.length : Int) + 1) = sc
    have htree := pushInternal_tree a v left [] t hte
    rw [hsc] at htree
    have h1 : zadd t sc v = t ++ [(v, sc)] := zadd_fresh _ _ _ hvt
    refine ⟨_, _, htree, ⟨Or.inl rfl, List.nodup_nil, ?_, ?_, ?_⟩, ?_⟩
    · rw [h1, List.map_append]
      exact List.Nodup.append htn (List.nodup_singleton v) (by simpa using hvt)
    · intro h0; exact absurd h0 (zadd_ne_nil _ _ _)
    · intro _
      have := hst hte
      rw [h1, List.length_append, List.length_singleton]; push_cast; omega
    · intro x hx
      rw [h1, List.map_append] at hx
      rcases hx with hx | hx
      · simp at hx
      · rcases List.mem_append.mp hx with h | h
        · exact Or.inr (Or.inr h)
        · exact Or.inl (by simpa using h)

theorem sizeInv_pop (a : Config) (hs : 0 ≤ a.reverseThreshold)
    (hg : a.reverseThreshold < a.threshold) (left : Bool)
    (l : List String) (t : ZSet) (hinv : SizeInv a l t) :
    ∃ r l1 t1, popInternal a left ⟨l, t, []⟩ = (r, ⟨l1, t1, []⟩) ∧ SizeInv a l1 t1 ∧
      (∀ x, x ∈ l1 ∨ x ∈ t1.map Prod.fst → x ∈ l ∨ x ∈ t.map Prod.fst) := by
  obtain ⟨hex, hln, htn, hsl, hst⟩ := hinv
  by_cases hte : t = []
  · subst hte
    have hsub := dequeStep_pop_sublist left l
    refine ⟨_, _, _, popInternal_list a left l, ⟨Or.inr rfl, hln.sublist hsub, by simp, ?_, ?_⟩,
      ?_⟩
    · intro _
      have h1 := hsub.length_le
      have h2 := hsl rfl
      omega
    · intro h; exact absurd rfl h
    · intro x hx
      rcases hx with hx | hx
      · exact Or.inl (hsub.subset hx)
      · simp at hx
  · have hl0 : l = [] := hex.resolve_right hte
    subst hl0
    obtain ⟨m, rest, hm⟩ := exists_popTarget left t hte
    have hsubk : ((zrem t m).map Prod.fst).Sublist (t.map Prod.fst) :=
      (List.filter_sublist t).map Prod.fst
    have hkn : ((zrem t m).map Prod.fst).Nodup := htn.sublist hsubk
    rw [popInternal_tree a left [] t m rest hm]
    by_cases hc : ((zrem t m).length : Int) ≤ a.reverseThreshold
    · rw [if_pos hc, List.nil_append]
      refine ⟨_, _, _, rfl, ⟨Or.inr rfl, ?_, by simp, ?_, ?_⟩, ?_⟩
      · exact (zmembers_perm (zrem t m)).nodup_iff.mpr hkn
      · intro _
        rw [zmembers_length]; omega
      · intro h; exact absurd rfl h
      · intro x hx
        rcases hx with hx | hx
        · exact Or.inr (hsubk.subset ((mem_zmembers _ _).mp hx))
        · simp at hx
    · rw [if_neg hc]
      refine ⟨_, _, _, rfl, ⟨Or.inl rfl, List.nodup_nil, hkn, ?_, ?_⟩, ?_⟩
      · intro h0
        rw [h0] at hc
        simp at hc
        omega
      · intro _; omega
      · intro x hx
        rcases hx with hx | hx
        · simp at hx
        · exact Or.inr (hsubk.subset hx)

theorem sizeInv_run (a : Config) (hs : 0 ≤ a.reverseThreshold)
    (hg : a.reverseThreshold < a.threshold) (ops : List Op)
    (l : List String) (t : ZSet) (hb : ∀ op ∈ ops, op.isBasic = true) (hinv : SizeInv a l t)
    (hnd : (pushedValues ops).Nodup)
    (hfresh : ∀ x ∈ pushedValues ops, x ∉ l ∧ x ∉ t.map Prod.fst) :
    ∃ l1 t1, runOps a ops ⟨l, t, []⟩ = ⟨l1, t1, []⟩ ∧ SizeInv a l1 t1 := by
  induction ops generalizing l t with
  | nil => exact ⟨l, t, rfl, hinv⟩
  | cons op ops ih =>
    have hb2 : ∀ o ∈ ops, o.isBasic = true := fun o ho => hb o (List.mem_cons_of_mem _ ho)
    have hpush : ∀ (v : String) (left : Bool),
        (step a op ⟨l, t, []⟩).2 = (pushInternal a v left ⟨l, t, []⟩).2 →
        pushedValues (op :: ops) = v :: pushedValues ops →
        ∃ l1 t1, runOps a (op :: ops) ⟨l, t, []⟩ = ⟨l1, t1, []⟩ ∧ SizeInv a l1 t1 := by
      intro v left hstep hpv
      rw [hpv] at hnd hfresh
      rw [List.nodup_cons] at hnd
      have hv := hfresh v (List.mem_cons_self _ _)
      obtain ⟨l1, t1, hp, hinv1, hmem⟩ := sizeInv_push a hg v left l t hinv hv.1 hv.2
      have hfresh1 : ∀ x ∈ pushedValues ops, x ∉ l1 ∧ x ∉ t1.map Prod.fst := by
        intro x hx
        have hxo := hfresh x (List.mem_cons_of_mem _ hx)
        have hxv : x ≠ v := fun h => hnd.1 (h ▸ hx)
        constructor
        · intro h
          rcases hmem x (Or.inl h) with h | h | h
          · exact hxv h
          · exact hxo.1 h
          · exact hxo.2 h
        · intro h
          rcases hmem x (Or.inr h) with h | h | h
          · exact hxv h
          · exact hxo.1 h
          · exact hxo.2 h
      obtain ⟨l2, t2, hr, hinv2⟩ := ih l1 t1 hb2 hinv1 hnd.2 hfresh1
      refine ⟨l2, t2, ?_, hinv2⟩
      simp only [runOps, List.foldl_cons] at hr ⊢
      rw [hstep, hp]
      exact hr
    have hpop : ∀ (left : Bool),
        step a op ⟨l, t, []⟩ = popInternal a left ⟨l, t, []⟩ →
        pushedValues (op :: ops) = pushedValues ops →
        ∃ l1 t1, runOps a (op :: ops) ⟨l, t, []⟩ = ⟨l1, t1, []⟩ ∧ SizeInv a l1 t1 := by
      intro left hstep hpv
      rw [hpv] at hnd hfresh
      obtain ⟨r, l1, t1, hp, hinv1, hmem⟩ := sizeInv_pop a hs hg left l t hinv
      have hfresh1 : ∀ x ∈ pushedValues ops, x ∉ l1 ∧ x ∉ t1.map Prod.fst := by
        intro x hx
        have hxo := hfresh x hx
        constructor
        · intro h
          rcases hmem x (Or.inl h) with h | h
          · exact hxo.1 h
          · exact hxo.2 h
        · intro h
          rcases hmem x (Or.inr h) with h | h
          · exact hxo.1 h
          · exact hxo.2 h
      obtain ⟨l2, t2, hr, hinv2⟩ := ih l1 t1 hb2 hinv1 hnd hfresh1
      refine ⟨l2, t2, ?_, hinv2⟩
      simp only [runOps, List.foldl_cons] at hr ⊢
      rw [hstep, hp]
      exact hr
    cases op with
    | push v => exact hpush v false rfl rfl
    | lpush v => exact hpush v true rfl rfl
    | pop => exact hpop false rfl rfl
    | lpop => exact hpop true rfl rfl
    | pushMany vs =>
      have := hb (Op.pushMany vs) (List.mem_cons_self _ _)
      simp [Op.isBasic] at this

/-- C17: for thresholds `0 <= reverseThreshold < threshold`, in every state reached from the
empty collection by `Push`/`LPush`/`Pop`/`LPop` calls that push pairwise distinct values,
list mode implies fewer than `threshold` elements in the list slot and tree mode implies more
than `reverseThreshold` members in the tree slot. -/
theorem size_mode_invariant (a : Config) (hs : 0 ≤ a.reverseThreshold)
    (hg : a.reverseThreshold < a.threshold) (ops : List Op)
    (hb : ∀ op ∈ ops, op.isBasic = true) (hnd : (pushedValues ops).Nodup) :
    (modeOf (runOps a ops Store.empty) = "list" →
      ((runOps a ops Store.empty).list.length : Int) < a.threshold) ∧
    (modeOf (runOps a ops Store.empty) = "tree" →
      a.reverseThreshold < ((runOps a ops Store.empty).tree.length : Int)) := by
  have hinv0 : SizeInv a [] [] :=
    ⟨Or.inl rfl, List.nodup_nil, List.nodup_nil, fun _ => by simp; omega,
      fun h => absurd rfl h⟩
  obtain ⟨l, t, hr, -, -, -, hsl, hst⟩ :=
    sizeInv_run a hs hg ops [] [] hb hinv0 hnd (fun x _ => by simp)
  rw [show Store.empty = ⟨[], [], []⟩ from rfl, hr, modeOf_ok]
  by_cases ht : t = []
  · rw [if_pos ht]
    exact ⟨fun _ => hsl ht, fun h => by simp at h⟩
  · rw [if_neg ht]
    exact ⟨fun h => by simp at h, fun _ => hst ht⟩

/-- C17 at thresholds 8 and 4: after eight pushes and three pops the mode is "tree" with five
members, more than 4; one more pop gives the mode "list" with four elements, fewer than 8. -/
theorem size_mode_invariant_witness :
    (4 : Int) < ((runOps ⟨8, 4⟩
      [Op.push "v0", Op.push "v1", Op.push "v2", Op.push "v3", Op.push "v4", Op.push "v5",
        Op.push "v6", Op.push "v7", Op.pop, Op.lpop, Op.pop] Store.empty).tree.length : Int) ∧
    ((runOps ⟨8, 4⟩
      [Op.push "v0", Op.push "v1", Op.push "v2", Op.push "v3", Op.push "v4", Op.push "v5",
        Op.push "v6", Op.push "v7", Op.pop, Op.lpop, Op.pop, Op.pop]
          Store.empty).list.length : Int) < 8 :=
  ⟨(size_mode_invariant ⟨8, 4⟩ (by decide) (by decide)
      [Op.push "v0", Op.push "v1", Op.push "v2", Op.push "v3", Op.push "v4", Op.push "v5",
        Op.push "v6", Op.push "v7", Op.pop, Op.lpop, Op.pop] (by decide) (by decide)).2
      (by decide),
   (size_mode_invariant ⟨8, 4⟩ (by decide) (by decide)
      [Op.push "v0", Op.push "v1", Op.push "v2", Op.push "v3", Op.push "v4", Op.push "v5",
        Op.push "v6", Op.push "v7", Op.pop, Op.lpop, Op.pop, Op.pop] (by decide)
      (by decide)).1 (by decide)⟩

end AdaptiveList
